import Mathlib

/-!
Verification of the web-doc-fetcher repository (`web_processor.py`, `main.py`).

Strings are modelled as lists of characters (`Str`); byte strings and
code-point strings as lists of naturals.  The URL functions are ports of the
CPython `urllib.parse` routines used by the source (`urlparse`, `urlunparse`,
`urljoin`) and of the `posixpath` routines (`dirname`, `basename`, `normpath`,
`relpath`, `join`).  The link-collection loop, the retrying fetch loop, the
per-link processing loop and the filename-uniqueness loop of
`process_document` are embedded as executable functions over these models.
-/

namespace WebFetcher

/-- Strings of the source program, modelled as lists of characters. -/
abbrev Str := List Char

/-- Conversion from a Lean string literal to the model representation. -/
def str (s : String) : Str := s.data

/-- Code points of a string (used where the source manipulates text that is
later compared to byte-level data). -/
def codesOf (s : Str) : List Nat := s.map Char.toNat

/-- `s.startswith(b)` of Python: byte-wise prefix test. -/
def startsWith : Str → Str → Bool
  | _, [] => true
  | [], _ :: _ => false
  | x :: xs, y :: ys => x = y && startsWith xs ys

/-- Split a string at the first occurrence of `c`: returns the part before
and, when `c` occurs, the part after it. -/
def splitAtFirst (c : Char) : Str → Str × Option Str
  | [] => ([], none)
  | x :: xs =>
    if x = c then ([], some xs)
    else
      let r := splitAtFirst c xs
      (x :: r.1, r.2)

/-- Split a string at the last occurrence of `c`; `none` if `c` is absent.
When `some (b, a)` is returned, the input equals `b ++ c :: a` and `a` is
`c`-free. -/
def splitAtLast (c : Char) (p : Str) : Option (Str × Str) :=
  match splitAtFirst c p.reverse with
  | (a, some r) => some (r.reverse, a.reverse)
  | (_, none) => none

/-- `str.split(c)` of Python: always returns at least one piece. -/
def splitAll (c : Char) : Str → List Str
  | [] => [[]]
  | x :: xs =>
    if x = c then [] :: splitAll c xs
    else
      match splitAll c xs with
      | h :: t => (x :: h) :: t
      | [] => [[x]]

/-- `c.join(pieces)` of Python. -/
def joinWith (c : Char) : List Str → Str
  | [] => []
  | [x] => x
  | x :: y :: xs => x ++ c :: joinWith c (y :: xs)

/-! ### Port of `urllib.parse` (the parts used by the source) -/

/-- The six components returned by `urlparse`. -/
structure UrlParts where
  scheme : Str
  netloc : Str
  path : Str
  params : Str
  query : Str
  fragment : Str
deriving DecidableEq, Repr

/-- Characters allowed in a URL scheme (`scheme_chars` of CPython). -/
def schemeCharB (c : Char) : Bool :=
  c.isAlpha || c.isDigit || decide (c = '+') || decide (c = '-') || decide (c = '.')

/-- Scheme extraction of CPython `urlsplit`: the text before the first colon
is a scheme when it is non-empty, starts with a letter and consists of scheme
characters; it is lower-cased.  Otherwise the URL is left untouched. -/
def splitScheme (u : Str) : Str × Str :=
  match splitAtFirst ':' u with
  | (before, some after) =>
    if before ≠ [] ∧ (before.headD ' ').isAlpha ∧ before.all schemeCharB then
      (before.map Char.toLower, after)
    else ([], u)
  | (_, none) => ([], u)

/-- A character that may appear in the network-location part. -/
def netlocChar (c : Char) : Bool :=
  decide (c ≠ '/') && decide (c ≠ '?') && decide (c ≠ '#')

/-- After the scheme is removed: when the remainder starts with `//`, the
network location runs to the next `/`, `?` or `#` (`_splitnetloc`). -/
def netSplit (rest0 : Str) : Str × Str :=
  if startsWith rest0 (str (r"//")) then
    ((rest0.drop 2).takeWhile netlocChar, (rest0.drop 2).dropWhile netlocChar)
  else ([], rest0)

/-- Port of CPython `urlsplit` with a default scheme (`urlsplit(url, scheme)`):
extract scheme, then `//netloc`, then the fragment after the first `#`, then
the query after the first `?`; the remainder is the path. -/
def urlsplitD (u dflt : Str) : UrlParts :=
  ⟨if (splitScheme u).1 = [] then dflt else (splitScheme u).1,
   (netSplit (splitScheme u).2).1,
   (splitAtFirst '?' (splitAtFirst '#' (netSplit (splitScheme u).2).2).1).1,
   [],
   ((splitAtFirst '?' (splitAtFirst '#' (netSplit (splitScheme u).2).2).1).2).getD [],
   ((splitAtFirst '#' (netSplit (splitScheme u).2).2).2).getD []⟩

/-- `_splitparams` of CPython `urlparse`: parameters are the text after a
semicolon that occurs in the last path segment. -/
def splitparams (p : Str) : Str × Str :=
  match splitAtLast '/' p with
  | some ba =>
    (match splitAtFirst ';' ba.2 with
     | (a, some rest) => (ba.1 ++ '/' :: a, rest)
     | (_, none) => (p, []))
  | none =>
    (match splitAtFirst ';' p with
     | (a, some rest) => (a, rest)
     | (_, none) => (p, []))

/-- Port of CPython `urlparse(url, scheme)`. -/
def urlparseD (u dflt : Str) : UrlParts :=
  ⟨(urlsplitD u dflt).scheme, (urlsplitD u dflt).netloc,
   (splitparams (urlsplitD u dflt).path).1, (splitparams (urlsplitD u dflt).path).2,
   (urlsplitD u dflt).query, (urlsplitD u dflt).fragment⟩

/-- `urlparse(url)` with the default empty scheme. -/
def urlparse (u : Str) : UrlParts := urlparseD u []

/-- The netloc/path portion of `urlunsplit`: `//` plus the netloc, with the
path forced to begin with `/`. -/
def netlocPortion (netloc path : Str) : Str :=
  if netloc ≠ [] ∨ startsWith path (str (r"//")) then
    str (r"//") ++ netloc ++ (if path ≠ [] ∧ path.head? ≠ some '/' then '/' :: path else path)
  else path

/-- `scheme:` prepended when the scheme is non-empty. -/
def withScheme (scheme u : Str) : Str := if scheme ≠ [] then scheme ++ ':' :: u else u

/-- `?query` appended when the query is non-empty. -/
def withQuery (u query : Str) : Str := if query ≠ [] then u ++ '?' :: query else u

/-- `#fragment` appended when the fragment is non-empty. -/
def withFrag (u frag : Str) : Str := if frag ≠ [] then u ++ '#' :: frag else u

/-- Port of CPython `urlunsplit`. -/
def urlunsplit (scheme netloc path query frag : Str) : Str :=
  withFrag (withQuery (withScheme scheme (netlocPortion netloc path)) query) frag

/-- Port of CPython `urlunparse`. -/
def urlunparse (p : UrlParts) : Str :=
  urlunsplit p.scheme p.netloc
    (if p.params ≠ [] then p.path ++ ';' :: p.params else p.path)
    p.query p.fragment

/-- CPython `uses_relative`: schemes for which relative resolution applies. -/
def usesRelative : List Str :=
  [[], str (r"ftp"), str (r"http"), str (r"gopher"), str (r"nntp"),
   str (r"imap"), str (r"wais"), str (r"file"), str (r"https"),
   str (r"shttp"), str (r"mms"), str (r"prospero"), str (r"rtsp"),
   str (r"rtspu"), str (r"sftp"), str (r"svn"), str (r"svn+ssh"),
   str (r"ws"), str (r"wss")]

/-- CPython `uses_netloc`: schemes with a network-location component. -/
def usesNetloc : List Str :=
  [[], str (r"ftp"), str (r"http"), str (r"gopher"), str (r"nntp"),
   str (r"telnet"), str (r"imap"), str (r"wais"), str (r"file"),
   str (r"mms"), str (r"https"), str (r"shttp"), str (r"snews"),
   str (r"prospero"), str (r"rtsp"), str (r"rtspu"), str (r"rsync"),
   str (r"svn"), str (r"svn+ssh"), str (r"sftp"), str (r"nfs"),
   str (r"git"), str (r"git+ssh"), str (r"ws"), str (r"wss")]

/-- Keep every element but drop empty strings except in the last position
(`segments[1:-1] = filter(None, segments[1:-1])`, applied to the tail). -/
def keepLastFilter : List Str → List Str
  | [] => []
  | [y] => [y]
  | y :: z :: ys => if y = [] then keepLastFilter (z :: ys) else y :: keepLastFilter (z :: ys)

/-- Drop empty segments between the first and the last one. -/
def midFilter : List Str → List Str
  | [] => []
  | x :: xs => x :: keepLastFilter xs

/-- The segment-resolution loop of CPython `urljoin`: `..` pops the last
resolved segment (ignoring underflow), `.` is dropped, everything else is
appended. -/
def resolveSegs (acc : List Str) : List Str → List Str
  | [] => acc
  | s :: rest =>
    if s = ['.', '.'] then resolveSegs acc.dropLast rest
    else if s = ['.'] then resolveSegs acc rest
    else resolveSegs (acc ++ [s]) rest

/-- Port of CPython `urljoin(base, url)`. -/
def urljoin (base url : Str) : Str :=
  if base = [] then url
  else if url = [] then base
  else
    let b := urlparseD base []
    let r := urlparseD url b.scheme
    if r.scheme ≠ b.scheme ∨ r.scheme ∉ usesRelative then url
    else if r.scheme ∈ usesNetloc ∧ r.netloc ≠ [] then
      urlunparse ⟨r.scheme, r.netloc, r.path, r.params, r.query, r.fragment⟩
    else
      let netloc := if r.scheme ∈ usesNetloc then b.netloc else r.netloc
      if r.path = [] ∧ r.params = [] then
        urlunparse ⟨r.scheme, netloc, b.path, b.params,
          (if r.query = [] then b.query else r.query), r.fragment⟩
      else
        let baseParts0 := splitAll '/' b.path
        let baseParts :=
          if baseParts0.getLast? ≠ some [] then baseParts0.dropLast else baseParts0
        let segments :=
          if r.path.head? = some '/' then splitAll '/' r.path
          else midFilter (baseParts ++ splitAll '/' r.path)
        let resolved := resolveSegs [] segments
        let resolved2 :=
          if segments.getLast? = some ['.'] ∨ segments.getLast? = some ['.', '.'] then
            resolved ++ [[]]
          else resolved
        let joined := joinWith '/' resolved2
        urlunparse ⟨r.scheme, netloc, (if joined = [] then ['/'] else joined),
          r.params, r.query, r.fragment⟩

/-! ### Port of `posixpath` (the parts used by the source) -/

/-- Strip trailing slashes (`head.rstrip('/')`). -/
def rstripSlash (s : Str) : Str :=
  (s.reverse.dropWhile (fun c => decide (c = '/'))).reverse

/-- Port of `posixpath.dirname`. -/
def dirname (p : Str) : Str :=
  match splitAtLast '/' p with
  | none => []
  | some ba =>
    let head := ba.1 ++ ['/']
    if head.any (fun c => decide (c ≠ '/')) then rstripSlash head else head

/-- Port of `posixpath.basename`. -/
def basename (p : Str) : Str :=
  match splitAtLast '/' p with
  | none => p
  | some ba => ba.2

/-- The component loop of `posixpath.normpath`: empty and `.` components are
dropped; `..` pops the previous component unless the path is relative and
nothing was accumulated, or the previous component is itself `..`. -/
def normComps (slashes : Nat) (acc : List Str) : List Str → List Str
  | [] => acc
  | comp :: rest =>
    if comp = [] ∨ comp = ['.'] then normComps slashes acc rest
    else if comp ≠ ['.', '.'] ∨ (slashes = 0 ∧ acc = []) ∨
        acc.getLast? = some ['.', '.'] then
      normComps slashes (acc ++ [comp]) rest
    else if acc ≠ [] then normComps slashes acc.dropLast rest
    else normComps slashes acc rest

/-- Port of `posixpath.normpath`. -/
def normpath (p : Str) : Str :=
  if p = [] then ['.']
  else
    let slashes : Nat :=
      if startsWith p (str (r"//")) ∧ ¬ startsWith p (str (r"///")) then 2
      else if p.head? = some '/' then 1
      else 0
    let joined := joinWith '/' (normComps slashes [] (splitAll '/' p))
    let out := List.replicate slashes '/' ++ joined
    if out = [] then ['.'] else out

/-- Non-empty components of the normalised path.  The source only calls
`relpath` on absolute paths, for which `abspath` is `normpath`. -/
def nonEmptyParts (p : Str) : List Str :=
  (splitAll '/' (normpath p)).filter (· ≠ [])

/-- Length of the common prefix of two component lists
(`os.path.commonprefix`). -/
def commonLen : List Str → List Str → Nat
  | a :: as_, b :: bs => if a = b then commonLen as_ bs + 1 else 0
  | _, _ => 0

/-- Port of `posixpath.relpath(path, start)` for absolute arguments: on POSIX
this never raises, so it is a total function here. -/
def relpath (path start : Str) : Str :=
  let sl := nonEmptyParts start
  let pl := nonEmptyParts path
  let i := commonLen sl pl
  let rel := List.replicate (sl.length - i) ['.', '.'] ++ pl.drop i
  if rel = [] then ['.'] else joinWith '/' rel

/-- Port of `posixpath.join` for two components, as used by the source. -/
def pjoin (a b : Str) : Str :=
  if b.head? = some '/' then b
  else if a = [] ∨ a.getLast? = some '/' then a ++ b
  else a ++ '/' :: b

/-! ### Link collection (`process_document`, lines 83–112) -/

/-- An anchor element found inside the link-source element: its href
attribute and the result of `get_text(strip=True)` (as code points). -/
structure Anchor where
  href : Str
  text : List Nat
deriving DecidableEq, Repr

/-- Entry of `unique_links_map`: the fragment-stripped URL used as key, the
originating anchor, and the resolved URL exactly as stored (`link_url`,
fragment included). -/
structure Cand where
  key : Str
  tag : Anchor
  url : Str
deriving DecidableEq, Repr

/-- `urlunparse(urlparse(u)._replace(fragment=''))`. -/
def stripFragment (u : Str) : Str :=
  let p := urlparse u
  urlunparse ⟨p.scheme, p.netloc, p.path, p.params, p.query, []⟩

/-- The parent-directory path of the start URL, with a trailing slash
(lines 85–87). -/
def parentPath (startUrl : Str) : Str :=
  let pth := (urlparse startUrl).path
  let par := dirname pth
  if par.getLast? ≠ some '/' then par ++ ['/'] else par

/-- `parent_url_base` (line 89): the Scope prefix derived from the start
URL. -/
def deriveScope (startUrl : Str) : Str :=
  let p := urlparse startUrl
  urlunparse ⟨p.scheme, p.netloc, parentPath startUrl, [], [], []⟩

/-- One iteration of the collection loop (lines 96–109): links with an empty
href are skipped; the resolved, fragment-stripped URL must extend the Scope
prefix and be a new key. -/
def collectGo (startUrl : Str) : List Anchor → List Cand → List Cand
  | [], acc => acc
  | a :: as_, acc =>
    if a.href = [] then collectGo startUrl as_ acc
    else
      let u := urljoin startUrl a.href
      let k := stripFragment u
      if startsWith k (deriveScope startUrl) ∧ ¬ acc.any (fun c => c.key = k) then
        collectGo startUrl as_ (acc ++ [⟨k, a, u⟩])
      else collectGo startUrl as_ acc

/-- `filtered_links_info` (line 112): the values of `unique_links_map` in
insertion order. -/
def collectLinks (startUrl : Str) (anchors : List Anchor) : List Cand :=
  collectGo startUrl anchors []

/-- The in-scope candidate sequence in document order, duplicates included:
each anchor with a non-empty href whose resolved fragment-stripped URL starts
with the Scope prefix contributes one entry. -/
def inScopeSeq (startUrl : Str) (anchors : List Anchor) : List Cand :=
  anchors.filterMap (fun a =>
    if a.href = [] then none
    else
      let u := urljoin startUrl a.href
      let k := stripFragment u
      if startsWith k (deriveScope startUrl) then some ⟨k, a, u⟩ else none)

/-- First-occurrence deduplication by key, excluding keys in `seen`: the
specification-side description of the ordered `unique_links_map`. -/
def dedupFirstExcl (seen : List Str) : List Cand → List Cand
  | [] => []
  | c :: cs =>
    if c.key ∈ seen then dedupFirstExcl seen cs
    else c :: dedupFirstExcl (c.key :: seen) cs

/-! ### Byte decoding (`response.content.decode(encoding or 'utf-8', errors='ignore')`) -/

/-- A UTF-8 continuation byte. -/
def isCont (b : Nat) : Bool := decide (128 ≤ b ∧ b ≤ 191)

/-- Valid second byte of a three-byte sequence led by `b1` (excludes overlong
encodings and surrogates, as CPython does). -/
def cont3Ok (b1 b2 : Nat) : Bool :=
  if b1 = 224 then decide (160 ≤ b2 ∧ b2 ≤ 191)
  else if b1 = 237 then decide (128 ≤ b2 ∧ b2 ≤ 159)
  else isCont b2

/-- Valid second byte of a four-byte sequence led by `b1`. -/
def cont4Ok (b1 b2 : Nat) : Bool :=
  if b1 = 240 then decide (144 ≤ b2 ∧ b2 ≤ 191)
  else if b1 = 244 then decide (128 ≤ b2 ∧ b2 ≤ 143)
  else isCont b2

/-- UTF-8 decoding with `errors='ignore'`, fuelled (each call consumes one
unit of fuel; with fuel equal to the byte count the fuel never runs out,
since each step consumes at least one byte): bytes that do not begin a valid
sequence are silently dropped; after an invalid lead or continuation,
decoding resumes at the next byte, matching CPython's maximal-subpart
handling on the inputs reachable here. -/
def utf8DecodeIgnoreF : Nat → List Nat → List Nat
  | _, [] => []
  | 0, _ :: _ => []
  | fuel + 1, b :: bs =>
    if b < 128 then b :: utf8DecodeIgnoreF fuel bs
    else if 194 ≤ b ∧ b ≤ 223 then
      match bs with
      | b2 :: bs2 =>
        if isCont b2 then ((b - 192) * 64 + (b2 - 128)) :: utf8DecodeIgnoreF fuel bs2
        else utf8DecodeIgnoreF fuel (b2 :: bs2)
      | [] => []
    else if 224 ≤ b ∧ b ≤ 239 then
      match bs with
      | b2 :: b3 :: bs3 =>
        if cont3Ok b b2 ∧ isCont b3 then
          ((b - 224) * 4096 + (b2 - 128) * 64 + (b3 - 128)) :: utf8DecodeIgnoreF fuel bs3
        else utf8DecodeIgnoreF fuel (b2 :: b3 :: bs3)
      | [b2] => utf8DecodeIgnoreF fuel [b2]
      | [] => []
    else if 240 ≤ b ∧ b ≤ 244 then
      match bs with
      | b2 :: b3 :: b4 :: bs4 =>
        if cont4Ok b b2 ∧ isCont b3 ∧ isCont b4 then
          ((b - 240) * 262144 + (b2 - 128) * 4096 + (b3 - 128) * 64 + (b4 - 128)) ::
            utf8DecodeIgnoreF fuel bs4
        else utf8DecodeIgnoreF fuel (b2 :: b3 :: b4 :: bs4)
      | [b2, b3] => utf8DecodeIgnoreF fuel [b2, b3]
      | [b2] => utf8DecodeIgnoreF fuel [b2]
      | [] => []
    else utf8DecodeIgnoreF fuel bs

/-- UTF-8 decoding with `errors='ignore'` (see `utf8DecodeIgnoreF`). -/
def utf8DecodeIgnore (bs : List Nat) : List Nat := utf8DecodeIgnoreF bs.length bs

/-- Names under which the UTF-8 codec is selected in this model. -/
def utf8Names : List Str := [str (r"utf-8"), str (r"utf8"), str (r"UTF-8"), str (r"utf_8")]

/-- `bytes.decode(enc, errors='ignore')`: the UTF-8 codec is modelled in
full; every other declared codec is modelled as a byte-identity decoder
(single-byte codecs such as latin-1 behave exactly so; the claims below only
concern the UTF-8 path and the fallback). -/
def pyDecodeIgnore (enc : Str) (bs : List Nat) : List Nat :=
  if enc ∈ utf8Names then utf8DecodeIgnore bs else bs

/-- Line 48 / line 162: `response.content.decode(response.encoding or 'utf-8',
errors='ignore')`.  `none` and the empty string are falsy, so they fall back
to UTF-8. -/
def decodeBody (enc : Option Str) (bs : List Nat) : List Nat :=
  match enc with
  | none => utf8DecodeIgnore bs
  | some e => if e = [] then utf8DecodeIgnore bs else pyDecodeIgnore e bs

/-- A UTF-8 decoder following the specification's words: invalid bytes are
replaced by the substitution character U+FFFD instead of being dropped.
Clearly named specification-side definition for the refinement comparison of
claim C7; it differs from the source's `errors='ignore'` behaviour. -/
def utf8DecodeReplaceSpec : List Nat → List Nat
  | [] => []
  | b :: bs =>
    if b < 128 then b :: utf8DecodeReplaceSpec bs
    else if 194 ≤ b ∧ b ≤ 223 then
      match bs with
      | b2 :: bs2 =>
        if isCont b2 then ((b - 192) * 64 + (b2 - 128)) :: utf8DecodeReplaceSpec bs2
        else 65533 :: utf8DecodeReplaceSpec (b2 :: bs2)
      | [] => [65533]
    else if 224 ≤ b ∧ b ≤ 239 then
      match bs with
      | b2 :: b3 :: bs3 =>
        if cont3Ok b b2 ∧ isCont b3 then
          ((b - 224) * 4096 + (b2 - 128) * 64 + (b3 - 128)) :: utf8DecodeReplaceSpec bs3
        else 65533 :: utf8DecodeReplaceSpec (b2 :: b3 :: bs3)
      | [b2] => 65533 :: utf8DecodeReplaceSpec [b2]
      | [] => [65533]
    else if 240 ≤ b ∧ b ≤ 244 then
      match bs with
      | b2 :: b3 :: b4 :: bs4 =>
        if cont4Ok b b2 ∧ isCont b3 ∧ isCont b4 then
          ((b - 240) * 262144 + (b2 - 128) * 4096 + (b3 - 128) * 64 + (b4 - 128)) ::
            utf8DecodeReplaceSpec bs4
        else 65533 :: utf8DecodeReplaceSpec (b2 :: b3 :: b4 :: bs4)
      | [b2, b3] => 65533 :: utf8DecodeReplaceSpec [b2, b3]
      | [b2] => 65533 :: utf8DecodeReplaceSpec [b2]
      | [] => [65533]
    else 65533 :: utf8DecodeReplaceSpec bs

/-! ### The retrying fetch loop (lines 37–52 and 150–166) -/

/-- One potential HTTP attempt: how long the request takes, its outcome
(`none` is any `RequestException`, including non-2xx statuses via
`raise_for_status`; `some (encoding, bytes)` is a success with the
server-declared encoding and the body bytes), and the backoff that
`random.uniform(min_delay, max_delay)` would return after a failure.
Durations are in abstract time units (naturals). -/
structure Attempt where
  dur : Nat
  result : Option (Option Str × List Nat)
  sleepDur : Nat
deriving DecidableEq, Repr

/-- Outcome of the retry loop. -/
inductive FetchOut where
  | success (enc : Option Str) (body : List Nat)
  | gaveUp
  | outOfTrace
deriving DecidableEq, Repr

/-- Whether the loop obtained a body. -/
def FetchOut.isOk : FetchOut → Bool
  | .success _ _ => true
  | _ => false

/-- Final state of the retry loop: outcome, elapsed time at exit and number
of HTTP attempts made. -/
structure FetchExec where
  out : FetchOut
  elapsed : Nat
  attempts : Nat
deriving DecidableEq, Repr

/-- The loop body: at the top of each iteration, give up when the elapsed
time strictly exceeds the budget `maxDur` (the source tests
`elapsed_time > max_retry_duration`); otherwise make the next attempt from
the trace, and on failure sleep the backoff and iterate.  The trace supplies
the environment's behaviour for each successive attempt; `outOfTrace` marks
executions that exhaust the supplied trace and is excluded from the theorems
below. -/
def runFetchAux (maxDur : Nat) : Nat → Nat → List Attempt → FetchExec
  | t, n, [] => ⟨.outOfTrace, t, n⟩
  | t, n, a :: rest =>
    if t > maxDur then ⟨.gaveUp, t, n⟩
    else
      match a.result with
      | some r => ⟨.success r.1 r.2, t + a.dur, n + 1⟩
      | none => runFetchAux maxDur (t + a.dur + a.sleepDur) (n + 1) rest

/-- The retry loop, started at elapsed time zero. -/
def runFetch (maxDur : Nat) (trace : List Attempt) : FetchExec :=
  runFetchAux maxDur 0 0 trace

/-! ### Filename sanitisation (lines 247–256) -/

/-- `str.lower` on a code point, modelled on the ASCII range (the property
proved below is insensitive to the non-ASCII cases, where CPython's `lower`
is likewise idempotent). -/
def pyLowerN (c : Nat) : Nat := if 65 ≤ c ∧ c ≤ 90 then c + 32 else c

/-- `replace(' ', '_')` on a code point. -/
def spaceToUnder (c : Nat) : Nat := if c = 32 then 95 else c

/-- `c.isalnum()` on a code point, modelled on the ASCII range. -/
def pyIsAlnumN (c : Nat) : Bool :=
  decide ((48 ≤ c ∧ c ≤ 57) ∨ (65 ≤ c ∧ c ≤ 90) ∨ (97 ≤ c ∧ c ≤ 122))

/-- `c.isalnum() or c in ('_', '-')` (line 250). -/
def keepCharB (c : Nat) : Bool := pyIsAlnumN c || decide (c = 95) || decide (c = 45)

/-- A character trimmed by `strip('_-')`. -/
def isTrimChar (c : Nat) : Bool := decide (c = 95) || decide (c = 45)

/-- `strip('_-')` (line 252). -/
def trimEnds (l : List Nat) : List Nat :=
  ((l.dropWhile isTrimChar).reverse.dropWhile isTrimChar).reverse

/-- Lines 247–252: lower-case, spaces to underscores, drop characters outside
alphanumerics/underscore/hyphen, trim leading and trailing
underscores/hyphens. -/
def sanitizeCore (s : List Nat) : List Nat :=
  trimEnds (((s.map pyLowerN).map spaceToUnder).filter keepCharB)

/-- `"untitled_page"` as code points. -/
def untitledCodes : List Nat := codesOf (str (r"untitled_page"))

/-- Lines 247–256: the full sanitisation, with the empty-result fallback. -/
def sanitize (s : List Nat) : List Nat :=
  if sanitizeCore s = [] then untitledCodes else sanitizeCore s

/-! ### Filename uniqueness (lines 294–301) -/

/-- Decimal digits of `n` (most significant first), computed with
structurally decreasing fuel so that concrete evaluation reduces in the
kernel. -/
def natDigitsAux : Nat → Nat → List Nat
  | 0, _ => []
  | fuel + 1, n => if n = 0 then [] else natDigitsAux fuel (n / 10) ++ [n % 10]

/-- The code points of `f"{n}"`. -/
def natCodes (n : Nat) : List Nat :=
  if n = 0 then [48] else (natDigitsAux n n).map (· + 48)

/-- The code points of `".md"`. -/
def mdCodes : List Nat := [46, 109, 100]

/-- The candidate filename for counter `k`: `stem.md` for `k = 0`, then
`stem_k.md` (the loop's counter starts at 1; 95 is the underscore). -/
def candLeaf (stem : List Nat) (k : Nat) : List Nat :=
  if k = 0 then stem ++ mdCodes
  else stem ++ (95 :: (natCodes k ++ mdCodes))

/-- The while-loop of lines 298–301: starting at counter `k`, return the
first counter whose candidate name is not among the existing leaves of the
target directory.  The fuel is one more than the number of existing files, so
the pigeonhole principle guarantees it never runs out. -/
def freeIdx (existing : List (List Nat)) (stem : List Nat) : Nat → Nat → Nat
  | k, 0 => k
  | k, fuel + 1 => if candLeaf stem k ∈ existing then freeIdx existing stem (k + 1) fuel else k

/-- The unique leaf filename chosen for `stem` given the `.md` leaves already
present in the target directory. -/
def uniqueLeaf (existing : List (List Nat)) (stem : List Nat) : List Nat :=
  candLeaf stem (freeIdx existing stem 0 (existing.length + 1))

/-- Numeric value of a big-endian decimal digit list (proof scaffolding for
the injectivity of the counter rendering). -/
def fromDigits (l : List Nat) : Nat := l.foldl (fun a d => a * 10 + d) 0

/-- Numeric value of the code points of a decimal numeral. -/
def valOfCodes (l : List Nat) : Nat := fromDigits (l.map (fun c => c - 48))

/-! ### The orchestrating loop (lines 122–309) -/

/-- A written output file: its directory path, its leaf filename (code
points) and the Markdown content.  Leaf names contain no slash, so this pair
determines the joined path injectively. -/
structure OutFile where
  dir : Str
  leaf : List Nat
  content : List Nat
deriving DecidableEq, Repr

/-- The collaborating environment of one run: per-URL fetch behaviour (a
trace of attempts for each successive request to that URL within one retry
loop), the content extractor (lines 173–221: boilerplate removal, selector,
heuristic and body fallback — `none` when no content at all is found), the
HTML→Markdown converter, the parsed link-source lookup (`none` when no
element matches the selector by id or class), and the CLI parameters. -/
structure Ctx where
  env : Str → List Attempt
  ext : List Nat → Option (List Nat)
  conv : List Nat → List Nat
  maxDur : Nat
  outputDir : Str
deriving Inhabited

/-- `base_path_for_relative` (lines 126–134). -/
def basePathForRelative (startUrl : Str) : Str :=
  let b := dirname (urlparse startUrl).path
  let b := if b = [] then ['/'] else b
  if b.getLast? ≠ some '/' then b ++ ['/'] else b

/-- `output_root_name` (line 138). -/
def outputRootName (startUrl : Str) : Str :=
  basename (normpath (basePathForRelative startUrl))

/-- Lines 258–290: the output directory for one link. -/
def fileDirFor (cx : Ctx) (startUrl : Str) (linkPath : Str) : Str :=
  let rel := relpath linkPath (basePathForRelative startUrl)
  let sub := dirname rel
  let root := outputRootName startUrl
  let d := if root ≠ [] then pjoin (pjoin cx.outputDir root) sub else pjoin cx.outputDir sub
  if startsWith d (str (r"./")) then d.drop 2 else d

/-- Lines 229–256: the sanitised filename stem for one link. -/
def stemFor (c : Cand) (linkPath : Str) : List Nat :=
  let base :=
    if c.tag.text ≠ [] then c.tag.text
    else (codesOf (basename linkPath)).map (fun ch => if ch = 46 then 95 else ch)
  sanitize base

/-- The file written for one successfully processed link (lines 223–307):
directory from the URL-path mapping, leaf from the sanitised stem made unique
against the leaves already present in that directory, content from the
converter. -/
def writtenFile (cx : Ctx) (startUrl : Str) (c : Cand) (fs : List OutFile)
    (contentHtml : List Nat) : OutFile :=
  ⟨fileDirFor cx startUrl (urlparse (stripFragment c.url)).path,
   uniqueLeaf
     ((fs.filter (fun f =>
        f.dir = fileDirFor cx startUrl (urlparse (stripFragment c.url)).path)).map
       OutFile.leaf)
     (stemFor c (urlparse (stripFragment c.url)).path),
   cx.conv contentHtml⟩

/-- Lines 143–309 for one link: fetch with retry; on success decode, extract,
convert and write the file under a collision-free name; on fetch or
extraction failure leave the file system unchanged (the loop logs and
continues). -/
def linkStep (cx : Ctx) (startUrl : Str) (c : Cand) (fs : List OutFile) : List OutFile :=
  match (runFetch cx.maxDur (cx.env c.url)).out with
  | .success enc body =>
    match cx.ext (decodeBody enc body) with
    | none => fs
    | some contentHtml => fs ++ [writtenFile cx startUrl c fs contentHtml]
  | _ => fs

/-- The `for link_tag, link_url in filtered_links_info` loop (lines 142–309),
threading the output directory's contents. -/
def processLinks (cx : Ctx) (startUrl : Str) : List Cand → List OutFile → List OutFile
  | [], fs => fs
  | c :: cs, fs => processLinks cx startUrl cs (linkStep cx startUrl c fs)

/-- How a run ends. -/
inductive RunStatus where
  | startFailed
  | noLinkSource
  | noAnchors
  | noInScope
  | completed
deriving DecidableEq, Repr

/-- Result of one `process_document` call: how it ended, the files written,
and how many HTTP attempts were made for the start page. -/
structure RunResult where
  status : RunStatus
  files : List OutFile
  startAttempts : Nat
deriving Repr

/-- Port of `process_document` (the whole function).  `anchorsOf` stands for
the parse-and-find steps (lines 54–72): given the decoded start page it
returns the anchors of the link-source element, or `none` when no element
matches the selector by id or class.  There is no URL validation anywhere:
the start URL goes straight into the retry loop. -/
def processDocument (cx : Ctx) (anchorsOf : List Nat → Option (List Anchor))
    (startUrl : Str) : RunResult :=
  match (runFetch cx.maxDur (cx.env startUrl)).out with
  | .success enc body =>
    match anchorsOf (decodeBody enc body) with
    | none => ⟨.noLinkSource, [], (runFetch cx.maxDur (cx.env startUrl)).attempts⟩
    | some anchors =>
      if anchors = [] then
        ⟨.noAnchors, [], (runFetch cx.maxDur (cx.env startUrl)).attempts⟩
      else if collectLinks startUrl anchors = [] then
        ⟨.noInScope, [], (runFetch cx.maxDur (cx.env startUrl)).attempts⟩
      else
        ⟨.completed, processLinks cx startUrl (collectLinks startUrl anchors) [],
         (runFetch cx.maxDur (cx.env startUrl)).attempts⟩
  | _ => ⟨.startFailed, [], (runFetch cx.maxDur (cx.env startUrl)).attempts⟩

/-! ### Concrete scenario data -/

/-- Scenario A start URL. -/
def scenAStart : Str := str (r"https://ex.com/docs/index.html")

/-- Scenario A anchors: the four hrefs of the link-source element. -/
def scenAAnchors : List Anchor :=
  [⟨str (r"/docs/a.html"), []⟩, ⟨str (r"/docs/b.html#sec"), []⟩,
   ⟨str (r"../other/c.html"), []⟩, ⟨str (r"https://other.com/x"), []⟩]

/-- An absolute href containing a dot segment; `urljoin` returns it verbatim
(netloc branch), so the dot segment survives into the collected link. -/
def scenDotHref : Str := str (r"https://ex.com/docs/../other/x.html")

/-- A fetch trace that fails every attempt within a 15-unit budget with
backoff 2 (attempt duration 1): the loop gives up after six attempts. -/
def scenFailTrace : List Attempt := List.replicate 8 ⟨1, none, 2⟩

/-- Scenario B environment: the first link fails every attempt, every other
URL succeeds immediately. -/
def scenBEnv : Str → List Attempt := fun u =>
  if u = str (r"https://ex.com/docs/a.html") then scenFailTrace
  else [⟨1, some (none, codesOf (str (r"hi"))), 0⟩]

/-- Scenario B run context. -/
def scenBCtx : Ctx := ⟨scenBEnv, fun h => some h, id, 15, str (r"output_markdowns")⟩

/-- Scenario B anchors: the failing link and a good one. -/
def scenBAnchors : List Anchor :=
  [⟨str (r"/docs/a.html"), codesOf (str (r"Bad Page"))⟩,
   ⟨str (r"/docs/sub/b.html"), codesOf (str (r"Good Page"))⟩]

/-- An environment in which every request raises (as a request for a
malformed URL does): every attempt errors. -/
def alwaysFailEnv : Str → List Attempt := fun _ => List.replicate 20 ⟨1, none, 0⟩

/-- A malformed start URL. -/
def malformedUrl : Str := str (r"not a url")

/-- Context for the malformed-URL run. -/
def scenFailCtx : Ctx := ⟨alwaysFailEnv, fun h => some h, id, 15, str (r"output_markdowns")⟩

/-- The failing candidate link of Scenario B, as the collector produces it. -/
def scenBBad : Cand :=
  ⟨str (r"https://ex.com/docs/a.html"), ⟨str (r"/docs/a.html"), codesOf (str (r"Bad Page"))⟩,
   str (r"https://ex.com/docs/a.html")⟩

/-- The succeeding candidate link of Scenario B. -/
def scenBGood : Cand :=
  ⟨str (r"https://ex.com/docs/sub/b.html"),
   ⟨str (r"/docs/sub/b.html"), codesOf (str (r"Good Page"))⟩,
   str (r"https://ex.com/docs/sub/b.html")⟩

/-! ## General lemmas about the string helpers -/

theorem startsWith_iff {b s : Str} : startsWith s b = true ↔ ∃ t, s = b ++ t := by
  induction b generalizing s with
  | nil =>
    simp [startsWith]
  | cons y ys ih =>
    cases s with
    | nil =>
      simp [startsWith]
    | cons x xs =>
      simp only [startsWith, Bool.and_eq_true, decide_eq_true_eq, ih, List.cons_append]
      constructor
      · rintro ⟨rfl, t, rfl⟩
        exact ⟨t, rfl⟩
      · rintro ⟨t, he⟩
        cases he
        exact ⟨rfl, t, rfl⟩

theorem startsWith_append (b t : Str) : startsWith (b ++ t) b = true :=
  startsWith_iff.mpr ⟨t, rfl⟩

theorem splitAtFirst_cons (c x : Char) (xs : Str) :
    splitAtFirst c (x :: xs) =
      if x = c then ([], some xs)
      else (x :: (splitAtFirst c xs).1, (splitAtFirst c xs).2) := rfl

theorem splitAtFirst_of_not_mem {c : Char} {l : Str} (h : c ∉ l) :
    splitAtFirst c l = (l, none) := by
  induction l with
  | nil => rfl
  | cons x xs ih =>
    simp only [List.mem_cons, not_or] at h
    have hx : ¬ x = c := fun he => h.1 he.symm
    rw [splitAtFirst_cons, if_neg hx, ih h.2]

theorem splitAtFirst_append_not_mem {c : Char} {l : Str} (h : c ∉ l) (r : Str) :
    splitAtFirst c (l ++ r) = (l ++ (splitAtFirst c r).1, (splitAtFirst c r).2) := by
  induction l with
  | nil => simp
  | cons x xs ih =>
    simp only [List.mem_cons, not_or] at h
    have hx : ¬ x = c := fun he => h.1 he.symm
    rw [List.cons_append, splitAtFirst_cons, if_neg hx, ih h.2]
    simp

theorem splitAtFirst_hit {c : Char} {l : Str} (h : c ∉ l) (r : Str) :
    splitAtFirst c (l ++ c :: r) = (l, some r) := by
  rw [splitAtFirst_append_not_mem h]
  rw [splitAtFirst_cons, if_pos rfl]
  simp

theorem splitAtFirst_fst_not_mem (c : Char) (l : Str) : c ∉ (splitAtFirst c l).1 := by
  induction l with
  | nil => simp [splitAtFirst]
  | cons x xs ih =>
    by_cases h : x = c
    · rw [splitAtFirst_cons, if_pos h]
      simp
    · rw [splitAtFirst_cons, if_neg h]
      simp only [List.mem_cons, not_or]
      exact ⟨fun he => h he.symm, ih⟩

theorem splitAtFirst_eq_some {c : Char} :
    ∀ (l x y : Str), splitAtFirst c l = (x, some y) → l = x ++ c :: y ∧ c ∉ x := by
  intro l
  induction l with
  | nil =>
    intro x y h
    simp [splitAtFirst] at h
  | cons a as ih =>
    intro x y h
    by_cases ha : a = c
    · rw [splitAtFirst_cons, if_pos ha] at h
      rw [Prod.ext_iff] at h
      obtain ⟨h1, h2⟩ := h
      cases h2
      subst h1
      simpa using ha
    · rw [splitAtFirst_cons, if_neg ha] at h
      rw [Prod.ext_iff] at h
      obtain ⟨h1, h2⟩ := h
      simp only at h1 h2
      have hs : splitAtFirst c as = ((splitAtFirst c as).1, some y) := by
        rw [Prod.ext_iff]
        exact ⟨rfl, h2⟩
      obtain ⟨hl, hnm⟩ := ih _ _ hs
      subst h1
      refine ⟨by rw [List.cons_append, ← hl], ?_⟩
      simp only [List.mem_cons, not_or]
      exact ⟨fun he => ha he.symm, hnm⟩

theorem splitAtFirst_fst_subset {c : Char} {l : Str} :
    ∀ x ∈ (splitAtFirst c l).1, x ∈ l := by
  induction l with
  | nil => simp [splitAtFirst]
  | cons a as ih =>
    by_cases h : a = c
    · rw [splitAtFirst_cons, if_pos h]
      simp
    · rw [splitAtFirst_cons, if_neg h]
      intro x hx
      rcases List.mem_cons.mp hx with hx | hx
      · simp [hx]
      · exact List.mem_cons_of_mem _ (ih x hx)

theorem splitAtFirst_snd_subset {c : Char} {l y : Str}
    (h : (splitAtFirst c l).2 = some y) : ∀ x ∈ y, x ∈ l := by
  have hs : splitAtFirst c l = ((splitAtFirst c l).1, some y) := by
    rw [Prod.ext_iff]
    exact ⟨rfl, h⟩
  obtain ⟨hl, -⟩ := splitAtFirst_eq_some _ _ _ hs
  intro x hx
  rw [hl]
  simp [hx]

theorem takeWhile_append_all {α} {p : α → Bool} {l : List α}
    (h : ∀ x ∈ l, p x = true) {y : α} (hy : p y = false) (r : List α) :
    ((l ++ y :: r).takeWhile p) = l := by
  induction l with
  | nil => simp [List.takeWhile, hy]
  | cons a as ih =>
    have ha : p a = true := h a (by simp)
    simp only [List.cons_append, List.takeWhile_cons, ha, if_true]
    rw [ih (fun x hx => h x (by simp [hx]))]

theorem dropWhile_append_all {α} {p : α → Bool} {l : List α}
    (h : ∀ x ∈ l, p x = true) {y : α} (hy : p y = false) (r : List α) :
    ((l ++ y :: r).dropWhile p) = y :: r := by
  induction l with
  | nil => simp [List.dropWhile, hy]
  | cons a as ih =>
    have ha : p a = true := h a (by simp)
    simp only [List.cons_append, List.dropWhile_cons, ha, if_true]
    exact ih (fun x hx => h x (by simp [hx]))

theorem map_eq_self_of {α} {f : α → α} {l : List α} (h : ∀ x ∈ l, f x = x) :
    l.map f = l := by
  induction l with
  | nil => rfl
  | cons a as ih => simp [h a (by simp), ih (fun x hx => h x (by simp [hx]))]

/-! ## The collection loop: characterisation -/

theorem any_key_iff {acc : List Cand} {k : Str} :
    acc.any (fun c => c.key = k) = true ↔ k ∈ acc.map Cand.key := by
  simp only [List.any_eq_true, decide_eq_true_eq, List.mem_map]

theorem dedupFirstExcl_cons (seen : List Str) (c : Cand) (cs : List Cand) :
    dedupFirstExcl seen (c :: cs) =
      if c.key ∈ seen then dedupFirstExcl seen cs
      else c :: dedupFirstExcl (c.key :: seen) cs := rfl

theorem dedupFirstExcl_congr :
    ∀ (l : List Cand) (s1 s2 : List Str), (∀ k, k ∈ s1 ↔ k ∈ s2) →
      dedupFirstExcl s1 l = dedupFirstExcl s2 l := by
  intro l
  induction l with
  | nil => intro s1 s2 _; rfl
  | cons c cs ih =>
    intro s1 s2 hs
    by_cases h : c.key ∈ s1
    · rw [dedupFirstExcl_cons, dedupFirstExcl_cons, if_pos h, if_pos ((hs _).mp h)]
      exact ih _ _ hs
    · rw [dedupFirstExcl_cons, dedupFirstExcl_cons, if_neg h,
        if_neg (fun hh => h ((hs _).mpr hh))]
      rw [ih (c.key :: s1) (c.key :: s2) (by intro k; simp [hs k])]

theorem inScopeSeq_cons (startUrl : Str) (a : Anchor) (as_ : List Anchor) :
    inScopeSeq startUrl (a :: as_) =
      (if a.href = [] then inScopeSeq startUrl as_
       else if startsWith (stripFragment (urljoin startUrl a.href)) (deriveScope startUrl) then
        ⟨stripFragment (urljoin startUrl a.href), a, urljoin startUrl a.href⟩ ::
          inScopeSeq startUrl as_
       else inScopeSeq startUrl as_) := by
  by_cases h0 : a.href = []
  · simp [inScopeSeq, h0]
  · by_cases h1 : startsWith (stripFragment (urljoin startUrl a.href)) (deriveScope startUrl) = true
    · simp [inScopeSeq, h0, h1]
    · simp [inScopeSeq, h0, h1]

theorem collectGo_cons (startUrl : Str) (a : Anchor) (as_ : List Anchor) (acc : List Cand) :
    collectGo startUrl (a :: as_) acc =
      if a.href = [] then collectGo startUrl as_ acc
      else
        if startsWith (stripFragment (urljoin startUrl a.href)) (deriveScope startUrl) ∧
            ¬ acc.any (fun c => c.key = stripFragment (urljoin startUrl a.href)) then
          collectGo startUrl as_
            (acc ++ [⟨stripFragment (urljoin startUrl a.href), a, urljoin startUrl a.href⟩])
        else collectGo startUrl as_ acc := rfl

theorem collectGo_eq (startUrl : Str) :
    ∀ (as_ : List Anchor) (acc : List Cand),
      collectGo startUrl as_ acc =
        acc ++ dedupFirstExcl (acc.map Cand.key) (inScopeSeq startUrl as_) := by
  intro as_
  induction as_ with
  | nil => intro acc; simp [collectGo, inScopeSeq, dedupFirstExcl]
  | cons a as ih =>
    intro acc
    rw [inScopeSeq_cons, collectGo_cons]
    by_cases h0 : a.href = []
    · rw [if_pos h0, if_pos h0]
      exact ih acc
    · rw [if_neg h0, if_neg h0]
      by_cases h1 : startsWith (stripFragment (urljoin startUrl a.href)) (deriveScope startUrl) = true
      · rw [if_pos h1]
        by_cases h2 : acc.any (fun c => c.key = stripFragment (urljoin startUrl a.href)) = true
        · rw [if_neg (fun hh => hh.2 h2)]
          rw [ih acc, dedupFirstExcl_cons, if_pos (any_key_iff.mp h2)]
        · rw [if_pos ⟨h1, h2⟩]
          rw [ih]
          rw [dedupFirstExcl_cons, if_neg (fun hh => h2 (any_key_iff.mpr hh))]
          rw [List.map_append, List.append_assoc]
          simp only [List.map_cons, List.map_nil, List.singleton_append]
          rw [dedupFirstExcl_congr _ (acc.map Cand.key ++ [stripFragment (urljoin startUrl a.href)])
            (stripFragment (urljoin startUrl a.href) :: acc.map Cand.key)
            (by intro k; simp [or_comm])]
      · rw [if_neg h1, if_neg (fun hh => h1 hh.1)]
        exact ih acc

theorem collectLinks_eq (startUrl : Str) (anchors : List Anchor) :
    collectLinks startUrl anchors = dedupFirstExcl [] (inScopeSeq startUrl anchors) := by
  have h := collectGo_eq startUrl anchors []
  simpa [collectLinks] using h

theorem mem_dedupFirstExcl_not_seen :
    ∀ {l : List Cand} {seen : List Str} {c : Cand},
      c ∈ dedupFirstExcl seen l → c.key ∉ seen := by
  intro l
  induction l with
  | nil =>
    intro seen c h
    simp [dedupFirstExcl] at h
  | cons d ds ih =>
    intro seen c h
    by_cases hd : d.key ∈ seen
    · rw [dedupFirstExcl_cons, if_pos hd] at h
      exact ih h
    · rw [dedupFirstExcl_cons, if_neg hd] at h
      rcases List.mem_cons.mp h with h | h
      · subst h
        exact hd
      · have := ih h
        intro hc
        exact this (by simp [hc])

theorem mem_dedupFirstExcl_mem :
    ∀ {l : List Cand} {seen : List Str} {c : Cand},
      c ∈ dedupFirstExcl seen l → c ∈ l := by
  intro l
  induction l with
  | nil =>
    intro seen c h
    simp [dedupFirstExcl] at h
  | cons d ds ih =>
    intro seen c h
    by_cases hd : d.key ∈ seen
    · rw [dedupFirstExcl_cons, if_pos hd] at h
      exact List.mem_cons_of_mem _ (ih h)
    · rw [dedupFirstExcl_cons, if_neg hd] at h
      rcases List.mem_cons.mp h with h | h
      · simp [h]
      · exact List.mem_cons_of_mem _ (ih h)

theorem dedupFirstExcl_keys_nodup :
    ∀ (l : List Cand) (seen : List Str),
      ((dedupFirstExcl seen l).map Cand.key).Nodup := by
  intro l
  induction l with
  | nil => intro seen; simp [dedupFirstExcl]
  | cons d ds ih =>
    intro seen
    by_cases hd : d.key ∈ seen
    · rw [dedupFirstExcl_cons, if_pos hd]
      exact ih seen
    · rw [dedupFirstExcl_cons, if_neg hd]
      simp only [List.map_cons, List.nodup_cons]
      refine ⟨?_, ih _⟩
      intro hmem
      rcases List.mem_map.mp hmem with ⟨c, hc, hck⟩
      exact mem_dedupFirstExcl_not_seen hc (by simp [hck])

theorem mem_inScopeSeq_props {startUrl : Str} {anchors : List Anchor} {c : Cand}
    (h : c ∈ inScopeSeq startUrl anchors) :
    c.key = stripFragment c.url ∧ startsWith c.key (deriveScope startUrl) = true := by
  rcases List.mem_filterMap.mp h with ⟨a, -, hfa⟩
  by_cases h0 : a.href = []
  · simp [h0] at hfa
  · by_cases h1 : startsWith (stripFragment (urljoin startUrl a.href)) (deriveScope startUrl) = true
    · rw [if_neg h0, if_pos h1] at hfa
      rw [Option.some_inj] at hfa
      subst hfa
      exact ⟨rfl, h1⟩
    · rw [if_neg h0, if_neg h1] at hfa
      cases hfa

theorem mem_collectLinks_props {startUrl : Str} {anchors : List Anchor} {c : Cand}
    (h : c ∈ collectLinks startUrl anchors) :
    c.key = stripFragment c.url ∧ startsWith c.key (deriveScope startUrl) = true := by
  rw [collectLinks_eq] at h
  exact mem_inScopeSeq_props (mem_dedupFirstExcl_mem h)

/-! ## The fragment-stripped URL contains no `#` -/

theorem char_toNat_ofNat (n : Nat) (h : n < 55296) : (Char.ofNat n).toNat = n := by
  unfold Char.ofNat
  rw [dif_pos (Or.inl h)]
  simp [Char.ofNatAux, Char.toNat, UInt32.toNat, BitVec.toNat_ofNat]

theorem toLower_ne_of_ne {c d : Char} (hdn : ¬ (97 ≤ d.toNat ∧ d.toNat ≤ 122))
    (hne : c ≠ d) : Char.toLower c ≠ d := by
  unfold Char.toLower
  by_cases h : c.toNat ≥ 65 ∧ c.toNat ≤ 90
  · rw [if_pos h]
    intro he
    have hv : (Char.ofNat (c.toNat + 32)).toNat = c.toNat + 32 :=
      char_toNat_ofNat _ (by omega)
    rw [he] at hv
    omega
  · rw [if_neg h]
    exact hne

theorem not_mem_splitScheme_fst {u : Str} {d : Char} (hd : schemeCharB d = false)
    (hdn : ¬ (97 ≤ d.toNat ∧ d.toNat ≤ 122)) : d ∉ (splitScheme u).1 := by
  unfold splitScheme
  split
  next before after hs =>
    split
    next hc =>
      intro hmem
      simp only at hmem
      rcases List.mem_map.mp hmem with ⟨c, hcm, hcl⟩
      have hsc : schemeCharB c = true := by
        have h2 := hc.2.2
        rw [List.all_eq_true] at h2
        exact h2 c hcm
      have hcd : c ≠ d := fun he => by
        rw [he] at hsc
        rw [hsc] at hd
        cases hd
      exact toLower_ne_of_ne hdn hcd hcl
    next => simp
  next => simp

theorem not_mem_netSplit_fst {r : Str} {d : Char} (hd : netlocChar d = false) :
    d ∉ (netSplit r).1 := by
  unfold netSplit
  split
  · intro hmem
    have h := List.mem_takeWhile_imp hmem
    rw [h] at hd
    cases hd
  · simp

theorem not_mem_urlsplitD_netloc {u dflt : Str} {d : Char}
    (hd : netlocChar d = false) : d ∉ (urlsplitD u dflt).netloc :=
  not_mem_netSplit_fst hd

theorem not_mem_urlsplitD_path {u dflt : Str} : '#' ∉ (urlsplitD u dflt).path :=
  fun hmem => splitAtFirst_fst_not_mem '#' _ (splitAtFirst_fst_subset _ hmem)

theorem not_mem_urlsplitD_query {u dflt : Str} : '#' ∉ (urlsplitD u dflt).query := by
  show '#' ∉ ((splitAtFirst '?'
      (splitAtFirst '#' ((netSplit (splitScheme u).2).2)).1).2).getD []
  rcases hq : (splitAtFirst '?'
      (splitAtFirst '#' ((netSplit (splitScheme u).2).2)).1).2 with - | y
  · simp
  · simp only [Option.getD_some]
    intro hmem
    exact splitAtFirst_fst_not_mem '#' _ (splitAtFirst_snd_subset hq _ hmem)

theorem splitAtLast_spec {c : Char} {p b a : Str}
    (h : splitAtLast c p = some (b, a)) : p = b ++ c :: a ∧ c ∉ a := by
  unfold splitAtLast at h
  rcases hs : splitAtFirst c p.reverse with ⟨a0, r0?⟩
  rw [hs] at h
  cases r0? with
  | none => cases h
  | some r0 =>
    simp only [Option.some_inj, Prod.ext_iff] at h
    obtain ⟨hb, ha⟩ := h
    obtain ⟨hrev, hnm⟩ := splitAtFirst_eq_some _ _ _ hs
    constructor
    · have : p = (a0 ++ c :: r0).reverse := by rw [← hrev, List.reverse_reverse]
      rw [this, List.reverse_append]
      simp [← hb, ← ha]
    · rw [← ha]
      simpa using hnm

theorem splitparams_fst_subset {p : Str} : ∀ x ∈ (splitparams p).1, x ∈ p := by
  unfold splitparams
  rcases hl : splitAtLast '/' p with - | ⟨b, a2⟩
  · rcases hf : splitAtFirst ';' p with ⟨a, r?⟩
    cases r? with
    | none => simp [hf]
    | some r =>
      obtain ⟨hp, -⟩ := splitAtFirst_eq_some _ _ _ hf
      simp only [hf]
      intro x hx
      rw [hp]
      simp only [List.mem_append]
      exact Or.inl hx
  · obtain ⟨hp, -⟩ := splitAtLast_spec hl
    rcases hf : splitAtFirst ';' a2 with ⟨a, r?⟩
    cases r? with
    | none => simp [hf]
    | some r =>
      obtain ⟨hp2, -⟩ := splitAtFirst_eq_some _ _ _ hf
      simp only [hf]
      intro x hx
      simp only [List.mem_append, List.mem_cons] at hx
      rw [hp, hp2]
      rcases hx with hx | hx | hx
      · simp [hx]
      · simp [hx]
      · simp [hx]

theorem splitparams_snd_subset {p : Str} : ∀ x ∈ (splitparams p).2, x ∈ p := by
  unfold splitparams
  rcases hl : splitAtLast '/' p with - | ⟨b, a2⟩
  · rcases hf : splitAtFirst ';' p with ⟨a, r?⟩
    cases r? with
    | none => simp [hf]
    | some r =>
      obtain ⟨hp, -⟩ := splitAtFirst_eq_some _ _ _ hf
      simp only [hf]
      intro x hx
      rw [hp]
      simp [hx]
  · obtain ⟨hp, -⟩ := splitAtLast_spec hl
    rcases hf : splitAtFirst ';' a2 with ⟨a, r?⟩
    cases r? with
    | none => simp [hf]
    | some r =>
      obtain ⟨hp2, -⟩ := splitAtFirst_eq_some _ _ _ hf
      simp only [hf]
      intro x hx
      rw [hp, hp2]
      simp [hx]

theorem not_mem_urlparseD_path {u dflt : Str} : '#' ∉ (urlparseD u dflt).path := by
  unfold urlparseD
  intro hmem
  exact not_mem_urlsplitD_path (splitparams_fst_subset _ hmem)

theorem not_mem_urlparseD_params {u dflt : Str} : '#' ∉ (urlparseD u dflt).params := by
  unfold urlparseD
  intro hmem
  exact not_mem_urlsplitD_path (splitparams_snd_subset _ hmem)

theorem not_mem_netlocPortion {ch : Char} (h1 : ch ≠ '/') {netloc path : Str}
    (hn : ch ∉ netloc) (hp : ch ∉ path) : ch ∉ netlocPortion netloc path := by
  have hss : str (r"//") = ['/', '/'] := rfl
  unfold netlocPortion
  split
  · rw [hss]
    simp only [List.append_assoc, List.mem_append, List.mem_cons, List.not_mem_nil, or_false]
    rintro ((hx | hx) | hx | hx)
    · exact h1 hx
    · exact h1 hx
    · exact hn hx
    · revert hx
      split
      · intro hx
        rcases List.mem_cons.mp hx with hx | hx
        · exact h1 hx
        · exact hp hx
      · exact hp
  · exact hp

theorem not_mem_withScheme {ch : Char} (h0 : ch ≠ ':') {scheme u : Str}
    (hs : ch ∉ scheme) (hu : ch ∉ u) : ch ∉ withScheme scheme u := by
  unfold withScheme
  split
  · simp only [List.mem_append, List.mem_cons]
    rintro (hx | hx | hx)
    · exact hs hx
    · exact h0 hx
    · exact hu hx
  · exact hu

theorem not_mem_withQuery {ch : Char} (h2 : ch ≠ '?') {u query : Str}
    (hu : ch ∉ u) (hq : ch ∉ query) : ch ∉ withQuery u query := by
  unfold withQuery
  split
  · simp only [List.mem_append, List.mem_cons]
    rintro (hx | hx | hx)
    · exact hu hx
    · exact h2 hx
    · exact hq hx
  · exact hu

theorem urlunsplit_not_mem {ch : Char} (h0 : ch ≠ ':') (h1 : ch ≠ '/') (h2 : ch ≠ '?')
    {scheme netloc path query frag : Str} (hs : ch ∉ scheme) (hn : ch ∉ netloc)
    (hp : ch ∉ path) (hq : ch ∉ query) (hf : frag = []) :
    ch ∉ urlunsplit scheme netloc path query frag := by
  unfold urlunsplit withFrag
  subst hf
  simp only [ne_eq, not_true_eq_false, if_false]
  exact not_mem_withQuery h2 (not_mem_withScheme h0 hs (not_mem_netlocPortion h1 hn hp)) hq

theorem hash_not_mem_stripFragment (u : Str) : '#' ∉ stripFragment u := by
  have hsch : '#' ∉ (urlparse u).scheme := by
    show '#' ∉ (if (splitScheme u).1 = [] then ([] : Str) else (splitScheme u).1)
    split
    · simp
    · exact not_mem_splitScheme_fst (by decide) (by decide)
  have hnet : '#' ∉ (urlparse u).netloc := by
    show '#' ∉ (urlsplitD u []).netloc
    exact not_mem_urlsplitD_netloc (by decide)
  have hpath : '#' ∉ (urlparse u).path := by
    show '#' ∉ (urlparseD u []).path
    exact not_mem_urlparseD_path
  have hpar : '#' ∉ (urlparse u).params := by
    show '#' ∉ (urlparseD u []).params
    exact not_mem_urlparseD_params
  have hq : '#' ∉ (urlparse u).query := by
    show '#' ∉ (urlsplitD u []).query
    exact not_mem_urlsplitD_query
  show '#' ∉ urlunsplit (urlparse u).scheme (urlparse u).netloc
    (if (urlparse u).params ≠ [] then (urlparse u).path ++ ';' :: (urlparse u).params
     else (urlparse u).path) (urlparse u).query []
  apply urlunsplit_not_mem (by decide) (by decide) (by decide) hsch hnet ?_ hq rfl
  by_cases hp : (urlparse u).params ≠ []
  · rw [if_pos hp]
    simp only [List.mem_append, List.mem_cons]
    rintro (hx | hx | hx)
    · exact hpath hx
    · cases hx
    · exact hpar hx
  · rw [if_neg hp]
    exact hpath

/-! ## Claims C1, C2, C5 -/

/-- C1: for every start URL and every anchor list of the found link-source
element, the collection output has pairwise-distinct fragment-stripped URLs,
equals the first-occurrence deduplication (in document order, first anchor
kept) of the in-scope candidate sequence, and every key extends the Scope
prefix byte-wise. -/
theorem collector_unique_ordered_in_scope (startUrl : Str) (anchors : List Anchor) :
    ((collectLinks startUrl anchors).map Cand.key).Nodup ∧
    collectLinks startUrl anchors = dedupFirstExcl [] (inScopeSeq startUrl anchors) ∧
    ∀ c ∈ collectLinks startUrl anchors, startsWith c.key (deriveScope startUrl) = true := by
  refine ⟨?_, collectLinks_eq _ _, ?_⟩
  · rw [collectLinks_eq]
    exact dedupFirstExcl_keys_nodup _ _
  · intro c hc
    exact (mem_collectLinks_props hc).2

/-- Witness for C1 at the Scenario A instance. -/
theorem collector_unique_ordered_in_scope_witness :
    ((collectLinks scenAStart scenAAnchors).map Cand.key).Nodup ∧
    startsWith (str (r"https://ex.com/docs/a.html")) (deriveScope scenAStart) = true := by
  refine ⟨(collector_unique_ordered_in_scope scenAStart scenAAnchors).1, ?_⟩
  have h := (collector_unique_ordered_in_scope scenAStart scenAAnchors).2.2
    ⟨str (r"https://ex.com/docs/a.html"), ⟨str (r"/docs/a.html"), []⟩,
      str (r"https://ex.com/docs/a.html")⟩ (by decide)
  exact h

/-- C2: Scenario A.  Start URL `https://ex.com/docs/index.html` with anchors
to `/docs/a.html`, `/docs/b.html#sec`, `../other/c.html` and
`https://other.com/x`: the derived scope is `https://ex.com/docs/` and the
collected in-scope keys are exactly `a.html` then `b.html`, fragment
stripped, `c.html` and the external link excluded. -/
theorem scenarioA_scope_and_links :
    deriveScope scenAStart = str (r"https://ex.com/docs/") ∧
    (collectLinks scenAStart scenAAnchors).map Cand.key =
      [str (r"https://ex.com/docs/a.html"), str (r"https://ex.com/docs/b.html")] := by
  decide

/-- C5 counterexample: in Scenario A the stored `CandidateLink` URL of the
second collected link is `https://ex.com/docs/b.html#sec` — it still contains
its fragment, refuting "the URL recorded in each CandidateLink contains no
fragment" (and this stored URL is exactly what `requests.get` is later called
with). -/
theorem stored_url_keeps_fragment_counterexample :
    ((collectLinks scenAStart scenAAnchors).map Cand.url)[1]? =
      some (str (r"https://ex.com/docs/b.html#sec")) ∧
    '#' ∈ str (r"https://ex.com/docs/b.html#sec") := by
  decide

/-- C5 amended: the fragment is stripped for scope comparison and
deduplication — every collected entry's key is the fragment-stripped form of
its stored URL and contains no `#` — but the stored URL itself (which
`linkStep` passes to the fetch environment) retains the fragment. -/
theorem collector_key_fragment_stripped (startUrl : Str) (anchors : List Anchor) :
    ∀ c ∈ collectLinks startUrl anchors,
      c.key = stripFragment c.url ∧ '#' ∉ c.key := by
  intro c hc
  obtain ⟨h1, -⟩ := mem_collectLinks_props hc
  refine ⟨h1, ?_⟩
  rw [h1]
  exact hash_not_mem_stripFragment c.url

/-- Witness for the amended C5 at the Scenario A instance. -/
theorem collector_key_fragment_stripped_witness :
    str (r"https://ex.com/docs/b.html") =
      stripFragment (str (r"https://ex.com/docs/b.html#sec")) ∧
    '#' ∉ str (r"https://ex.com/docs/b.html") := by
  have h := collector_key_fragment_stripped scenAStart scenAAnchors
    ⟨str (r"https://ex.com/docs/b.html"), ⟨str (r"/docs/b.html#sec"), []⟩,
      str (r"https://ex.com/docs/b.html#sec")⟩ (by decide)
  exact h

/-! ## Claim C10: the path component of collected links -/

theorem splitparams_no_semi {p : Str} (h : ';' ∉ p) : splitparams p = (p, []) := by
  unfold splitparams
  rcases hl : splitAtLast '/' p with - | ⟨b, a2⟩
  · simp [splitAtFirst_of_not_mem h]
  · obtain ⟨hp, -⟩ := splitAtLast_spec hl
    have ha2 : ';' ∉ a2 := fun hx => h (by rw [hp]; simp [hx])
    simp [splitAtFirst_of_not_mem ha2]

theorem splitScheme_hit {u x y : Str} (h : splitAtFirst ':' u = (x, some y))
    (hc : x ≠ [] ∧ (x.headD ' ').isAlpha = true ∧ x.all schemeCharB = true) :
    splitScheme u = (x.map Char.toLower, y) := by
  unfold splitScheme
  rw [h]
  exact if_pos hc

theorem splitScheme_concrete (t : Str) :
    splitScheme (str (r"https://ex.com/docs/") ++ t) =
      (str (r"https"), str (r"//ex.com/docs/") ++ t) := by
  have e0 : str (r"https://ex.com/docs/") ++ t =
      str (r"https") ++ ':' :: (str (r"//ex.com/docs/") ++ t) := by
    have e1 : str (r"https://ex.com/docs/") =
        str (r"https") ++ ':' :: str (r"//ex.com/docs/") := rfl
    rw [e1]
    simp
  rw [e0]
  have hh : splitAtFirst ':' (str (r"https") ++ ':' :: (str (r"//ex.com/docs/") ++ t)) =
      (str (r"https"), some (str (r"//ex.com/docs/") ++ t)) :=
    splitAtFirst_hit (by decide) _
  have hm : List.map Char.toLower (str (r"https")) = str (r"https") := by decide
  rw [splitScheme_hit hh (by decide), hm]

theorem netSplit_slash2 (M : Str) :
    netSplit ('/' :: '/' :: M) = (M.takeWhile netlocChar, M.dropWhile netlocChar) := by
  unfold netSplit
  rw [if_pos ((@startsWith_iff (str (r"//")) ('/' :: '/' :: M)).mpr ⟨M, rfl⟩)]
  exact rfl

theorem netSplit_concrete (t : Str) :
    netSplit (str (r"//ex.com/docs/") ++ t) = (str (r"ex.com"), str (r"/docs/") ++ t) := by
  have e1 : str (r"//ex.com/docs/") ++ t =
      '/' :: '/' :: (str (r"ex.com") ++ '/' :: (str (r"docs/") ++ t)) := by
    have e0 : str (r"//ex.com/docs/") =
        '/' :: '/' :: (str (r"ex.com") ++ '/' :: str (r"docs/")) := rfl
    rw [e0]
    simp
  rw [e1, netSplit_slash2]
  rw [takeWhile_append_all (by decide) (by decide),
    dropWhile_append_all (by decide) (by decide)]
  exact rfl

theorem urlparse_path_concrete (t : Str)
    (hsemi : ';' ∉ str (r"https://ex.com/docs/") ++ t) :
    ∃ t2, (urlparse (str (r"https://ex.com/docs/") ++ t)).path = str (r"/docs/") ++ t2 := by
  have hpath0 : (urlsplitD (str (r"https://ex.com/docs/") ++ t) []).path =
      str (r"/docs/") ++ (splitAtFirst '?' (splitAtFirst '#' t).1).1 := by
    show (splitAtFirst '?'
        (splitAtFirst '#'
          (netSplit (splitScheme (str (r"https://ex.com/docs/") ++ t)).2).2).1).1 =
      str (r"/docs/") ++ (splitAtFirst '?' (splitAtFirst '#' t).1).1
    rw [splitScheme_concrete, netSplit_concrete]
    rw [splitAtFirst_append_not_mem (by decide)]
    show (splitAtFirst '?' (str (r"/docs/") ++ (splitAtFirst '#' t).1)).1 = _
    rw [splitAtFirst_append_not_mem (by decide)]
  have hsp : ';' ∉ (urlsplitD (str (r"https://ex.com/docs/") ++ t) []).path := by
    rw [hpath0]
    intro hx
    rcases List.mem_append.mp hx with hx | hx
    · revert hx
      decide
    · exact hsemi (by
        simp only [List.mem_append]
        exact Or.inr (splitAtFirst_fst_subset _ (splitAtFirst_fst_subset _ hx)))
  refine ⟨(splitAtFirst '?' (splitAtFirst '#' t).1).1, ?_⟩
  show (splitparams (urlsplitD (str (r"https://ex.com/docs/") ++ t) []).path).1 = _
  rw [splitparams_no_semi hsp, hpath0]

/-- C10 counterexample: the absolute href `https://ex.com/docs/../other/x.html`
is returned verbatim by `urljoin` (netloc branch — no dot-segment removal),
passes the Scope prefix filter, and its URL path even extends the base path
byte-wise; yet `os.path.relpath` normalises the dot segment and produces
`../other/x.html`, whose leading `..` escapes the base directory — refuting
"the relative-path computation never escapes the base". -/
theorem relpath_escape_counterexample :
    (collectLinks scenAStart [⟨scenDotHref, []⟩]).map Cand.key = [scenDotHref] ∧
    startsWith (urlparse scenDotHref).path (basePathForRelative scenAStart) = true ∧
    relpath (urlparse scenDotHref).path (basePathForRelative scenAStart) =
      str (r"../other/x.html") ∧
    (relpath (urlparse scenDotHref).path (basePathForRelative scenAStart)).take 2 =
      ['.', '.'] := by
  decide

/-- C10 amended: for the Scenario A start URL, every collected link whose URL
carries no parameter separator `;` has a URL path component that byte-wise
starts with the base directory path `basePathForRelative` (the
dirname-plus-trailing-slash rule); on POSIX `relpath` is total, so the
`ValueError` skip branch is unreachable — but, as the counterexample shows,
dot segments inside an absolute href survive `urljoin`, so the relative path
produced by `relpath` can still begin with `..` and escape the base. -/
theorem collected_path_extends_base (anchors : List Anchor) :
    ∀ c ∈ collectLinks scenAStart anchors, ';' ∉ c.key →
      startsWith (urlparse c.key).path (basePathForRelative scenAStart) = true := by
  intro c hc hsemi
  have hsw := (mem_collectLinks_props hc).2
  have hscope : deriveScope scenAStart = str (r"https://ex.com/docs/") := by decide
  rw [hscope] at hsw
  obtain ⟨t, ht⟩ := startsWith_iff.mp hsw
  have hbase : basePathForRelative scenAStart = str (r"/docs/") := by decide
  rw [hbase, ht]
  rw [ht] at hsemi
  obtain ⟨t2, hp⟩ := urlparse_path_concrete t hsemi
  rw [hp]
  exact startsWith_append _ _

/-- Witness for the amended C10 at the Scenario A instance. -/
theorem collected_path_extends_base_witness :
    startsWith (urlparse (str (r"https://ex.com/docs/a.html"))).path
      (basePathForRelative scenAStart) = true := by
  have h := collected_path_extends_base scenAAnchors
    ⟨str (r"https://ex.com/docs/a.html"), ⟨str (r"/docs/a.html"), []⟩,
      str (r"https://ex.com/docs/a.html")⟩ (by decide) (by decide)
  exact h

/-! ## Claim C3: the retrying fetch loop -/

theorem runFetchAux_cons (maxDur t n : Nat) (a : Attempt) (rest : List Attempt) :
    runFetchAux maxDur t n (a :: rest) =
      if t > maxDur then ⟨.gaveUp, t, n⟩
      else
        match a.result with
        | some r => ⟨.success r.1 r.2, t + a.dur, n + 1⟩
        | none => runFetchAux maxDur (t + a.dur + a.sleepDur) (n + 1) rest := rfl

theorem runFetchAux_elapsed_le {maxDur A S : Nat} :
    ∀ (trace : List Attempt) (t n : Nat),
      (∀ a ∈ trace, a.dur ≤ A ∧ a.sleepDur ≤ S) → t ≤ maxDur + A + S →
      (runFetchAux maxDur t n trace).elapsed ≤ maxDur + A + S := by
  intro trace
  induction trace with
  | nil => intro t n _ ht; exact ht
  | cons a rest ih =>
    intro t n hb ht
    rw [runFetchAux_cons]
    by_cases hgt : t > maxDur
    · rw [if_pos hgt]
      exact ht
    · rw [if_neg hgt]
      have hd := hb a (by simp)
      rcases hr : a.result with - | r
      · exact ih _ _ (fun x hx => hb x (by simp [hx])) (by omega)
      · show t + a.dur ≤ maxDur + A + S
        omega

theorem runFetchAux_gaveUp_gt {maxDur : Nat} :
    ∀ (trace : List Attempt) (t n : Nat),
      (runFetchAux maxDur t n trace).out = .gaveUp →
      (runFetchAux maxDur t n trace).elapsed > maxDur := by
  intro trace
  induction trace with
  | nil =>
    intro t n h
    cases h
  | cons a rest ih =>
    intro t n h
    rw [runFetchAux_cons] at h ⊢
    by_cases hgt : t > maxDur
    · rw [if_pos hgt] at h ⊢
      exact hgt
    · rw [if_neg hgt] at h ⊢
      rcases hr : a.result with - | r
      · simp only [hr] at h ⊢
        exact ih _ _ h
      · simp only [hr] at h
        cases h

theorem runFetchAux_attempts_replicate {maxDur : Nat} :
    ∀ (m t n : Nat), t ≤ maxDur →
      (runFetchAux maxDur t n (List.replicate m ⟨0, none, 0⟩)).attempts = n + m := by
  intro m
  induction m with
  | zero => intro t n _; rfl
  | succ m ih =>
    intro t n ht
    rw [List.replicate_succ, runFetchAux_cons, if_neg (by omega)]
    show (runFetchAux maxDur (t + 0 + 0) (n + 1) (List.replicate m ⟨0, none, 0⟩)).attempts = n + (m + 1)
    rw [ih (t + 0 + 0) (n + 1) (by omega)]
    omega

/-- C3 counterexample: with `maxRetryDuration = 0`, at the top of the first
iteration the elapsed time `0` is `≥` the budget, so the claim mandates an
immediate `FetchFailed` with no attempt; the code's strict
`elapsed_time > max_retry_duration` test lets one whole attempt (plus its
backoff sleep) run, so the loop makes 1 attempt and only then gives up at
elapsed time 2. -/
theorem retry_boundary_counterexample :
    runFetch 0 [⟨1, none, 1⟩, ⟨1, none, 1⟩] = ⟨.gaveUp, 2, 1⟩ ∧ (1 : Nat) ≠ 0 := by
  decide

/-- C3 amended: the loop is time-bounded, not attempt-bounded, with a strict
comparison: it gives up at the top of an iteration exactly when the elapsed
time strictly exceeds `maxRetryDuration` (so at elapsed time exactly equal to
the budget one more attempt is made); consequently the elapsed time at exit
never exceeds `maxRetryDuration` plus one attempt's duration plus one backoff
sleep, and the number of attempts within the budget is unbounded (instantly
failing attempts are all made). -/
theorem retry_time_bounded (maxDur A S : Nat) (trace : List Attempt)
    (hb : ∀ a ∈ trace, a.dur ≤ A ∧ a.sleepDur ≤ S) :
    (runFetch maxDur trace).elapsed ≤ maxDur + A + S ∧
    ((runFetch maxDur trace).out = .gaveUp → (runFetch maxDur trace).elapsed > maxDur) ∧
    (∀ n, (runFetch maxDur (List.replicate n ⟨0, none, 0⟩)).attempts = n) := by
  refine ⟨runFetchAux_elapsed_le trace 0 0 hb (by omega), runFetchAux_gaveUp_gt trace 0 0, ?_⟩
  intro n
  have h := @runFetchAux_attempts_replicate maxDur n 0 0 (by omega)
  simpa using h

/-- Witness for the amended C3 on a concrete trace. -/
theorem retry_time_bounded_witness :
    (runFetch 15 [⟨2, none, 5⟩, ⟨2, some (none, [104]), 0⟩]).elapsed ≤ 15 + 2 + 5 := by
  exact (retry_time_bounded 15 2 5 [⟨2, none, 5⟩, ⟨2, some (none, [104]), 0⟩] (by decide)).1

/-! ## Claims C4 and C6: the orchestrating loop -/

theorem processLinks_cons (cx : Ctx) (startUrl : Str) (c : Cand) (cs : List Cand)
    (fs : List OutFile) :
    processLinks cx startUrl (c :: cs) fs =
      processLinks cx startUrl cs (linkStep cx startUrl c fs) := rfl

theorem linkStep_skip_of_fetch_fail {cx : Ctx} {startUrl : Str} {c : Cand}
    (h : (runFetch cx.maxDur (cx.env c.url)).out.isOk = false) (fs : List OutFile) :
    linkStep cx startUrl c fs = fs := by
  unfold linkStep
  rcases ho : (runFetch cx.maxDur (cx.env c.url)).out with ⟨e, b⟩ | - | -
  · rw [ho] at h
    simp [FetchOut.isOk] at h
  · rfl
  · rfl

theorem linkStep_skip_of_ext_none {cx : Ctx} {startUrl : Str} {c : Cand}
    {enc : Option Str} {body : List Nat}
    (h : (runFetch cx.maxDur (cx.env c.url)).out = .success enc body)
    (hext : cx.ext (decodeBody enc body) = none) (fs : List OutFile) :
    linkStep cx startUrl c fs = fs := by
  unfold linkStep
  simp only [h, hext]

theorem processLinks_skip_of_fetch_fail (cx : Ctx) (startUrl : Str) :
    ∀ (pre : List Cand) (bad : Cand) (post : List Cand) (fs : List OutFile),
      (runFetch cx.maxDur (cx.env bad.url)).out.isOk = false →
      processLinks cx startUrl (pre ++ bad :: post) fs =
        processLinks cx startUrl (pre ++ post) fs := by
  intro pre
  induction pre with
  | nil =>
    intro bad post fs h
    rw [List.nil_append, List.nil_append, processLinks_cons,
      linkStep_skip_of_fetch_fail h]
  | cons p ps ih =>
    intro bad post fs h
    rw [List.cons_append, List.cons_append, processLinks_cons, processLinks_cons]
    exact ih bad post _ h

theorem processLinks_skip_of_ext_none (cx : Ctx) (startUrl : Str) :
    ∀ (pre : List Cand) (bad : Cand) (post : List Cand) (fs : List OutFile)
      (enc : Option Str) (body : List Nat),
      (runFetch cx.maxDur (cx.env bad.url)).out = .success enc body →
      cx.ext (decodeBody enc body) = none →
      processLinks cx startUrl (pre ++ bad :: post) fs =
        processLinks cx startUrl (pre ++ post) fs := by
  intro pre
  induction pre with
  | nil =>
    intro bad post fs enc body h hext
    rw [List.nil_append, List.nil_append, processLinks_cons,
      linkStep_skip_of_ext_none h hext]
  | cons p ps ih =>
    intro bad post fs enc body h hext
    rw [List.cons_append, List.cons_append, processLinks_cons, processLinks_cons]
    exact ih bad post _ enc body h hext

theorem processDocument_start_fail {cx : Ctx} {anchorsOf : List Nat → Option (List Anchor)}
    {startUrl : Str} (h : (runFetch cx.maxDur (cx.env startUrl)).out.isOk = false) :
    (processDocument cx anchorsOf startUrl).status = .startFailed ∧
    (processDocument cx anchorsOf startUrl).files = [] := by
  unfold processDocument
  rcases ho : (runFetch cx.maxDur (cx.env startUrl)).out with ⟨e, b⟩ | - | -
  · rw [ho] at h
    simp [FetchOut.isOk] at h
  · exact ⟨rfl, rfl⟩
  · exact ⟨rfl, rfl⟩

/-- C4: after the start page, failures are per-link.  A link whose retrying
fetch does not produce a body is skipped (the processed-file list is exactly
the one obtained without that link); a link whose extraction finds no content
is likewise skipped; processing always continues with the remaining links.
Only the start page's fetch failure is fatal: it ends the run with no files
at all. -/
theorem link_failures_skip_start_failure_fatal :
    (∀ (cx : Ctx) (startUrl : Str) (pre : List Cand) (bad : Cand) (post : List Cand)
       (fs : List OutFile),
       (runFetch cx.maxDur (cx.env bad.url)).out.isOk = false →
       processLinks cx startUrl (pre ++ bad :: post) fs =
         processLinks cx startUrl (pre ++ post) fs) ∧
    (∀ (cx : Ctx) (startUrl : Str) (pre : List Cand) (bad : Cand) (post : List Cand)
       (fs : List OutFile) (enc : Option Str) (body : List Nat),
       (runFetch cx.maxDur (cx.env bad.url)).out = .success enc body →
       cx.ext (decodeBody enc body) = none →
       processLinks cx startUrl (pre ++ bad :: post) fs =
         processLinks cx startUrl (pre ++ post) fs) ∧
    (∀ (cx : Ctx) (anchorsOf : List Nat → Option (List Anchor)) (startUrl : Str),
       (runFetch cx.maxDur (cx.env startUrl)).out.isOk = false →
       (processDocument cx anchorsOf startUrl).status = .startFailed ∧
       (processDocument cx anchorsOf startUrl).files = []) :=
  ⟨fun cx s => processLinks_skip_of_fetch_fail cx s,
   fun cx s => processLinks_skip_of_ext_none cx s,
   fun _ _ _ h => processDocument_start_fail h⟩

/-- Witness for C4: Scenario B.  The first link fails every attempt for the
whole 15-unit budget (backoff 2); it is skipped, and the run still writes the
second link's file `output_markdowns/docs/sub/good_page.md`. -/
theorem link_failures_skip_start_failure_fatal_witness :
    processLinks scenBCtx scenAStart [scenBBad, scenBGood] [] =
      processLinks scenBCtx scenAStart [scenBGood] [] ∧
    processLinks scenBCtx scenAStart [scenBGood] [] =
      [⟨str (r"output_markdowns/docs/sub"), codesOf (str (r"good_page.md")),
        codesOf (str (r"hi"))⟩] := by
  constructor
  · exact link_failures_skip_start_failure_fatal.1 scenBCtx scenAStart [] scenBBad [scenBGood]
      [] (by decide)
  · decide

theorem runFetchAux_all_fail_not_ok {maxDur : Nat} :
    ∀ (trace : List Attempt) (t n : Nat), (∀ a ∈ trace, a.result = none) →
      (runFetchAux maxDur t n trace).out.isOk = false := by
  intro trace
  induction trace with
  | nil => intro t n _; rfl
  | cons a rest ih =>
    intro t n hf
    rw [runFetchAux_cons]
    by_cases hgt : t > maxDur
    · rw [if_pos hgt]
      rfl
    · rw [if_neg hgt]
      have ha : a.result = none := hf a (by simp)
      simp only [ha]
      exact ih _ _ (fun x hx => hf x (by simp [hx]))

theorem runFetchAux_attempts_ge {maxDur : Nat} :
    ∀ (trace : List Attempt) (t n : Nat), n ≤ (runFetchAux maxDur t n trace).attempts := by
  intro trace
  induction trace with
  | nil => intro t n; exact Nat.le_refl n
  | cons a rest ih =>
    intro t n
    rw [runFetchAux_cons]
    by_cases hgt : t > maxDur
    · rw [if_pos hgt]
    · rw [if_neg hgt]
      rcases hr : a.result with - | r
      · exact Nat.le_trans (by omega) (ih (t + a.dur + a.sleepDur) (n + 1))
      · show n ≤ n + 1
        omega

/-- C6 counterexample: the code performs no URL validation at all.  For the
malformed start URL `"not a url"` — whose every request raises, exactly as
`requests.get` does on a URL without a scheme — the run makes 16 HTTP
attempts (retrying with backoff through the whole 15-unit budget) before
giving up, and ends through the ordinary start-page-failure path; there is no
`MalformedUrl` error and nothing fails fast before fetching. -/
theorem malformed_url_fetched_counterexample :
    (processDocument scenFailCtx (fun _ => some []) malformedUrl).startAttempts = 16 ∧
    (processDocument scenFailCtx (fun _ => some []) malformedUrl).status = .startFailed := by
  decide

/-- C6 amended: a malformed start URL is not detected up front: the URL goes
straight into the retry loop, whose every attempt fails; at least one attempt
is always made (the time check cannot trip at elapsed 0), and once the budget
is exhausted the run aborts through the start-page-failure path with no files
written. -/
theorem malformed_url_retries_then_aborts (cx : Ctx)
    (anchorsOf : List Nat → Option (List Anchor)) (url : Str)
    (hfail : ∀ a ∈ cx.env url, a.result = none) (hne : cx.env url ≠ []) :
    (processDocument cx anchorsOf url).status = .startFailed ∧
    (processDocument cx anchorsOf url).files = [] ∧
    1 ≤ (processDocument cx anchorsOf url).startAttempts := by
  have hok : (runFetch cx.maxDur (cx.env url)).out.isOk = false :=
    runFetchAux_all_fail_not_ok (cx.env url) 0 0 hfail
  obtain ⟨hst, hfi⟩ := processDocument_start_fail hok
  refine ⟨hst, hfi, ?_⟩
  have hatt : (processDocument cx anchorsOf url).startAttempts =
      (runFetch cx.maxDur (cx.env url)).attempts := by
    unfold processDocument
    rcases ho : (runFetch cx.maxDur (cx.env url)).out with ⟨e, b⟩ | - | -
    · rw [ho] at hok
      simp [FetchOut.isOk] at hok
    · rfl
    · rfl
  rw [hatt]
  rcases he : cx.env url with - | ⟨a, rest⟩
  · exact absurd he hne
  · show 1 ≤ (runFetchAux cx.maxDur 0 0 (a :: rest)).attempts
    rw [runFetchAux_cons, if_neg (by omega)]
    rcases hr : a.result with - | r
    · exact Nat.le_trans (by omega) (runFetchAux_attempts_ge rest _ 1)
    · show 1 ≤ 0 + 1
      omega

/-- Witness for the amended C6 at the concrete malformed-URL run. -/
theorem malformed_url_retries_then_aborts_witness :
    (processDocument scenFailCtx (fun _ => some []) malformedUrl).status = .startFailed ∧
    1 ≤ (processDocument scenFailCtx (fun _ => some []) malformedUrl).startAttempts := by
  obtain ⟨h1, -, h3⟩ := malformed_url_retries_then_aborts scenFailCtx (fun _ => some [])
    malformedUrl (by decide) (by decide)
  exact ⟨h1, h3⟩

/-! ## Claim C7: body decoding -/

theorem utf8F_succ_cons (fuel b : Nat) (bs : List Nat) :
    utf8DecodeIgnoreF (fuel + 1) (b :: bs) =
      (if b < 128 then b :: utf8DecodeIgnoreF fuel bs
       else if 194 ≤ b ∧ b ≤ 223 then
         match bs with
         | b2 :: bs2 =>
           if isCont b2 then ((b - 192) * 64 + (b2 - 128)) :: utf8DecodeIgnoreF fuel bs2
           else utf8DecodeIgnoreF fuel (b2 :: bs2)
         | [] => []
       else if 224 ≤ b ∧ b ≤ 239 then
         match bs with
         | b2 :: b3 :: bs3 =>
           if cont3Ok b b2 ∧ isCont b3 then
             ((b - 224) * 4096 + (b2 - 128) * 64 + (b3 - 128)) :: utf8DecodeIgnoreF fuel bs3
           else utf8DecodeIgnoreF fuel (b2 :: b3 :: bs3)
         | [b2] => utf8DecodeIgnoreF fuel [b2]
         | [] => []
       else if 240 ≤ b ∧ b ≤ 244 then
         match bs with
         | b2 :: b3 :: b4 :: bs4 =>
           if cont4Ok b b2 ∧ isCont b3 ∧ isCont b4 then
             ((b - 240) * 262144 + (b2 - 128) * 4096 + (b3 - 128) * 64 + (b4 - 128)) ::
               utf8DecodeIgnoreF fuel bs4
           else utf8DecodeIgnoreF fuel (b2 :: b3 :: b4 :: bs4)
         | [b2, b3] => utf8DecodeIgnoreF fuel [b2, b3]
         | [b2] => utf8DecodeIgnoreF fuel [b2]
         | [] => []
       else utf8DecodeIgnoreF fuel bs) := rfl

theorem utf8F_ascii (fuel b : Nat) (bs : List Nat) (h : b < 128) :
    utf8DecodeIgnoreF (fuel + 1) (b :: bs) = b :: utf8DecodeIgnoreF fuel bs := by
  rw [utf8F_succ_cons, if_pos h]

theorem utf8F_else (fuel b : Nat) (bs : List Nat) (h1 : ¬ b < 128)
    (h2 : ¬ (194 ≤ b ∧ b ≤ 223)) (h3 : ¬ (224 ≤ b ∧ b ≤ 239))
    (h4 : ¬ (240 ≤ b ∧ b ≤ 244)) :
    utf8DecodeIgnoreF (fuel + 1) (b :: bs) = utf8DecodeIgnoreF fuel bs := by
  rw [utf8F_succ_cons, if_neg h1, if_neg h2, if_neg h3, if_neg h4]

theorem utf8F_two (fuel b b2 : Nat) (bs2 : List Nat) (h1 : ¬ b < 128)
    (h2 : 194 ≤ b ∧ b ≤ 223) :
    utf8DecodeIgnoreF (fuel + 1) (b :: b2 :: bs2) =
      (if isCont b2 then ((b - 192) * 64 + (b2 - 128)) :: utf8DecodeIgnoreF fuel bs2
       else utf8DecodeIgnoreF fuel (b2 :: bs2)) := by
  rw [utf8F_succ_cons, if_neg h1, if_pos h2]

theorem utf8F_three (fuel b b2 b3 : Nat) (bs3 : List Nat) (h1 : ¬ b < 128)
    (h2 : ¬ (194 ≤ b ∧ b ≤ 223)) (h3 : 224 ≤ b ∧ b ≤ 239) :
    utf8DecodeIgnoreF (fuel + 1) (b :: b2 :: b3 :: bs3) =
      (if cont3Ok b b2 ∧ isCont b3 then
        ((b - 224) * 4096 + (b2 - 128) * 64 + (b3 - 128)) :: utf8DecodeIgnoreF fuel bs3
       else utf8DecodeIgnoreF fuel (b2 :: b3 :: bs3)) := by
  rw [utf8F_succ_cons, if_neg h1, if_neg h2, if_pos h3]

theorem utf8F_four (fuel b b2 b3 b4 : Nat) (bs4 : List Nat) (h1 : ¬ b < 128)
    (h2 : ¬ (194 ≤ b ∧ b ≤ 223)) (h3 : ¬ (224 ≤ b ∧ b ≤ 239))
    (h4 : 240 ≤ b ∧ b ≤ 244) :
    utf8DecodeIgnoreF (fuel + 1) (b :: b2 :: b3 :: b4 :: bs4) =
      (if cont4Ok b b2 ∧ isCont b3 ∧ isCont b4 then
        ((b - 240) * 262144 + (b2 - 128) * 4096 + (b3 - 128) * 64 + (b4 - 128)) ::
          utf8DecodeIgnoreF fuel bs4
       else utf8DecodeIgnoreF fuel (b2 :: b3 :: b4 :: bs4)) := by
  rw [utf8F_succ_cons, if_neg h1, if_neg h2, if_neg h3, if_pos h4]

theorem utf8F_fuel_irrel :
    ∀ (f : Nat) (bs : List Nat) (f2 : Nat), bs.length ≤ f → bs.length ≤ f2 →
      utf8DecodeIgnoreF f bs = utf8DecodeIgnoreF f2 bs := by
  intro f
  induction f with
  | zero =>
    intro bs f2 h1 h2
    cases bs with
    | nil => cases f2 <;> rfl
    | cons b bs' => simp at h1
  | succ g ih =>
    intro bs f2 h1 h2
    cases bs with
    | nil => cases f2 <;> rfl
    | cons b bs' =>
      cases f2 with
      | zero => simp at h2
      | succ g2 =>
        simp only [List.length_cons] at h1 h2
        by_cases hb1 : b < 128
        · rw [utf8F_ascii g b bs' hb1, utf8F_ascii g2 b bs' hb1,
            ih bs' g2 (by omega) (by omega)]
        · by_cases hb2 : 194 ≤ b ∧ b ≤ 223
          · cases bs' with
            | nil =>
              rw [utf8F_succ_cons g, utf8F_succ_cons g2, if_neg hb1, if_neg hb1,
                if_pos hb2, if_pos hb2]
            | cons b2 bs2 =>
              simp only [List.length_cons] at h1 h2
              rw [utf8F_two g b b2 bs2 hb1 hb2, utf8F_two g2 b b2 bs2 hb1 hb2]
              by_cases hc : isCont b2 = true
              · rw [if_pos hc, if_pos hc, ih bs2 g2 (by omega) (by omega)]
              · rw [if_neg hc, if_neg hc,
                  ih (b2 :: bs2) g2 (by simp [List.length_cons]; omega)
                    (by simp [List.length_cons]; omega)]
          · by_cases hb3 : 224 ≤ b ∧ b ≤ 239
            · cases bs' with
              | nil =>
                rw [utf8F_succ_cons g, utf8F_succ_cons g2, if_neg hb1, if_neg hb1,
                  if_neg hb2, if_neg hb2, if_pos hb3, if_pos hb3]
              | cons b2 bs2 =>
                cases bs2 with
                | nil =>
                  rw [utf8F_succ_cons g, utf8F_succ_cons g2, if_neg hb1, if_neg hb1,
                    if_neg hb2, if_neg hb2, if_pos hb3, if_pos hb3]
                  simp only [List.length_cons] at h1 h2
                  exact ih [b2] g2 (by simp; omega) (by simp; omega)
                | cons b3 bs3 =>
                  simp only [List.length_cons] at h1 h2
                  rw [utf8F_three g b b2 b3 bs3 hb1 hb2 hb3,
                    utf8F_three g2 b b2 b3 bs3 hb1 hb2 hb3]
                  by_cases hc : cont3Ok b b2 = true ∧ isCont b3 = true
                  · rw [if_pos hc, if_pos hc, ih bs3 g2 (by omega) (by omega)]
                  · rw [if_neg hc, if_neg hc,
                      ih (b2 :: b3 :: bs3) g2 (by simp [List.length_cons]; omega)
                        (by simp [List.length_cons]; omega)]
            · by_cases hb4 : 240 ≤ b ∧ b ≤ 244
              · cases bs' with
                | nil =>
                  rw [utf8F_succ_cons g, utf8F_succ_cons g2, if_neg hb1, if_neg hb1,
                    if_neg hb2, if_neg hb2, if_neg hb3, if_neg hb3, if_pos hb4, if_pos hb4]
                | cons b2 bs2 =>
                  cases bs2 with
                  | nil =>
                    rw [utf8F_succ_cons g, utf8F_succ_cons g2, if_neg hb1, if_neg hb1,
                      if_neg hb2, if_neg hb2, if_neg hb3, if_neg hb3, if_pos hb4, if_pos hb4]
                    simp only [List.length_cons] at h1 h2
                    exact ih [b2] g2 (by simp; omega) (by simp; omega)
                  | cons b3 bs3 =>
                    cases bs3 with
                    | nil =>
                      rw [utf8F_succ_cons g, utf8F_succ_cons g2, if_neg hb1, if_neg hb1,
                        if_neg hb2, if_neg hb2, if_neg hb3, if_neg hb3, if_pos hb4,
                        if_pos hb4]
                      simp only [List.length_cons] at h1 h2
                      exact ih [b2, b3] g2 (by simp; omega) (by simp; omega)
                    | cons b4 bs4 =>
                      simp only [List.length_cons] at h1 h2
                      rw [utf8F_four g b b2 b3 b4 bs4 hb1 hb2 hb3 hb4,
                        utf8F_four g2 b b2 b3 b4 bs4 hb1 hb2 hb3 hb4]
                      by_cases hc : cont4Ok b b2 = true ∧ isCont b3 = true ∧ isCont b4 = true
                      · rw [if_pos hc, if_pos hc, ih bs4 g2 (by omega) (by omega)]
                      · rw [if_neg hc, if_neg hc,
                          ih (b2 :: b3 :: b4 :: bs4) g2 (by simp [List.length_cons]; omega)
                            (by simp [List.length_cons]; omega)]
              · rw [utf8F_else g b bs' hb1 hb2 hb3 hb4, utf8F_else g2 b bs' hb1 hb2 hb3 hb4,
                  ih bs' g2 (by omega) (by omega)]

theorem utf8_ascii (b : Nat) (bs : List Nat) (h : b < 128) :
    utf8DecodeIgnore (b :: bs) = b :: utf8DecodeIgnore bs := by
  show utf8DecodeIgnoreF (bs.length + 1) (b :: bs) = b :: utf8DecodeIgnoreF bs.length bs
  rw [utf8F_ascii _ _ _ h]

theorem utf8_drop_invalid_low (b : Nat) (bs : List Nat) (h1 : 128 ≤ b) (h2 : b ≤ 193) :
    utf8DecodeIgnore (b :: bs) = utf8DecodeIgnore bs := by
  show utf8DecodeIgnoreF (bs.length + 1) (b :: bs) = utf8DecodeIgnoreF bs.length bs
  rw [utf8F_else _ _ _ (by omega) (by omega) (by omega) (by omega)]

theorem utf8_drop_invalid_high (b : Nat) (bs : List Nat) (h : 245 ≤ b) :
    utf8DecodeIgnore (b :: bs) = utf8DecodeIgnore bs := by
  show utf8DecodeIgnoreF (bs.length + 1) (b :: bs) = utf8DecodeIgnoreF bs.length bs
  rw [utf8F_else _ _ _ (by omega) (by omega) (by omega) (by omega)]

theorem utf8_two_byte (b b2 : Nat) (bs : List Nat) (h1 : 194 ≤ b) (h2 : b ≤ 223)
    (h3 : 128 ≤ b2) (h4 : b2 ≤ 191) :
    utf8DecodeIgnore (b :: b2 :: bs) =
      ((b - 192) * 64 + (b2 - 128)) :: utf8DecodeIgnore bs := by
  have hcont : isCont b2 = true := by
    simp only [isCont, decide_eq_true_eq]
    omega
  show utf8DecodeIgnoreF (b2 :: bs).length.succ (b :: b2 :: bs) =
    ((b - 192) * 64 + (b2 - 128)) :: utf8DecodeIgnoreF bs.length bs
  rw [utf8F_two _ _ _ _ (by omega) ⟨h1, h2⟩, if_pos hcont,
    utf8F_fuel_irrel (b2 :: bs).length bs bs.length (by simp) (Nat.le_refl _)]

theorem decodeBody_some_ne (e : Str) (bs : List Nat) (h : e ≠ []) :
    decodeBody (some e) bs = pyDecodeIgnore e bs := by
  show (if e = [] then utf8DecodeIgnore bs else pyDecodeIgnore e bs) = pyDecodeIgnore e bs
  rw [if_neg h]

/-- C7 counterexample: for the body bytes `[104, 255, 33]` with no declared
encoding, the code decodes with `errors='ignore'` and silently drops the
invalid byte 255, giving `[104, 33]`; the specification's invalid-byte
substitution would give `[104, 65533, 33]` (U+FFFD inserted).  The two
disagree, so the decoded text does not contain a substitution character —
the invalid byte is dropped. -/
theorem decode_drops_counterexample :
    decodeBody none [104, 255, 33] = [104, 33] ∧
    utf8DecodeReplaceSpec [104, 255, 33] = [104, 65533, 33] ∧
    decodeBody none [104, 255, 33] ≠ utf8DecodeReplaceSpec [104, 255, 33] := by
  decide

/-- C7 amended: the body is decoded with the server-declared encoding when
one is declared (non-empty), falling back to UTF-8 when none or an empty one
is declared; but invalid bytes are silently dropped (`errors='ignore'`), not
replaced by a substitution character: an invalid lead byte vanishes from the
output while valid ASCII and multi-byte sequences decode normally. -/
theorem decode_fallback_and_drop :
    (∀ bs, decodeBody none bs = utf8DecodeIgnore bs) ∧
    (∀ bs, decodeBody (some []) bs = utf8DecodeIgnore bs) ∧
    (∀ e bs, e ≠ [] → decodeBody (some e) bs = pyDecodeIgnore e bs) ∧
    (∀ b bs, b < 128 → utf8DecodeIgnore (b :: bs) = b :: utf8DecodeIgnore bs) ∧
    (∀ b bs, 128 ≤ b → b ≤ 193 → utf8DecodeIgnore (b :: bs) = utf8DecodeIgnore bs) ∧
    (∀ b bs, 245 ≤ b → utf8DecodeIgnore (b :: bs) = utf8DecodeIgnore bs) ∧
    (∀ b b2 bs, 194 ≤ b → b ≤ 223 → 128 ≤ b2 → b2 ≤ 191 →
      utf8DecodeIgnore (b :: b2 :: bs) =
        ((b - 192) * 64 + (b2 - 128)) :: utf8DecodeIgnore bs) :=
  ⟨fun _ => rfl, fun _ => rfl, decodeBody_some_ne,
   utf8_ascii, utf8_drop_invalid_low, utf8_drop_invalid_high, utf8_two_byte⟩

/-- Witness for the amended C7 at concrete bytes. -/
theorem decode_fallback_and_drop_witness :
    utf8DecodeIgnore (255 :: [104]) = utf8DecodeIgnore [104] ∧
    utf8DecodeIgnore (66 :: []) = 66 :: utf8DecodeIgnore [] ∧
    decodeBody (some (str (r"latin-1"))) [200] = pyDecodeIgnore (str (r"latin-1")) [200] := by
  refine ⟨decode_fallback_and_drop.2.2.2.2.2.1 255 [104] (by decide), ?_, ?_⟩
  · exact decode_fallback_and_drop.2.2.2.1 66 [] (by decide)
  · exact decode_fallback_and_drop.2.2.1 (str (r"latin-1")) [200] (by decide)

/-! ## Claim C8: filename uniqueness -/

theorem natDigitsAux_zero (f : Nat) : natDigitsAux f 0 = [] := by
  cases f <;> rfl

theorem fromDigits_append (l : List Nat) (d : Nat) :
    fromDigits (l ++ [d]) = fromDigits l * 10 + d := by
  simp [fromDigits, List.foldl_append]

theorem fromDigits_natDigitsAux :
    ∀ (f n : Nat), 0 < n → n ≤ f → fromDigits (natDigitsAux f n) = n := by
  intro f
  induction f with
  | zero =>
    intro n h1 h2
    omega
  | succ g ih =>
    intro n h1 h2
    show fromDigits (if n = 0 then [] else natDigitsAux g (n / 10) ++ [n % 10]) = n
    rw [if_neg (by omega), fromDigits_append]
    by_cases hd : n / 10 = 0
    · rw [hd, natDigitsAux_zero]
      have h0 : fromDigits ([] : List Nat) = 0 := rfl
      rw [h0]
      omega
    · have hlt : n / 10 < n := Nat.div_lt_self h1 (by omega)
      rw [ih (n / 10) (by omega) (by omega)]
      omega

theorem valOfCodes_natCodes (n : Nat) : valOfCodes (natCodes n) = n := by
  unfold natCodes
  by_cases h : n = 0
  · rw [if_pos h]
    subst h
    rfl
  · rw [if_neg h]
    unfold valOfCodes
    rw [List.map_map]
    have he : ((fun c => c - 48) ∘ (fun d : Nat => d + 48)) = fun d : Nat => d := by
      funext d
      simp
    rw [he, List.map_id']
    exact fromDigits_natDigitsAux n n (by omega) (Nat.le_refl n)

theorem natCodes_inj {m n : Nat} (h : natCodes m = natCodes n) : m = n := by
  have h2 := congrArg valOfCodes h
  rwa [valOfCodes_natCodes, valOfCodes_natCodes] at h2

theorem candLeaf_inj (stem : List Nat) :
    ∀ {j k : Nat}, candLeaf stem j = candLeaf stem k → j = k := by
  intro j k h
  unfold candLeaf at h
  by_cases hj : j = 0 <;> by_cases hk : k = 0
  · omega
  · rw [if_pos hj, if_neg hk] at h
    have h2 : mdCodes = 95 :: (natCodes k ++ mdCodes) := List.append_cancel_left h
    simp [mdCodes] at h2
  · rw [if_neg hj, if_pos hk] at h
    have h2 : 95 :: (natCodes j ++ mdCodes) = mdCodes := List.append_cancel_left h
    simp [mdCodes] at h2
  · rw [if_neg hj, if_neg hk] at h
    have h2 : 95 :: (natCodes j ++ mdCodes) = 95 :: (natCodes k ++ mdCodes) :=
      List.append_cancel_left h
    have h3 : natCodes j ++ mdCodes = natCodes k ++ mdCodes := by
      injection h2
    exact natCodes_inj (List.append_cancel_right h3)

theorem exists_free_leaf (ex : List (List Nat)) (stem : List Nat) :
    ∃ j, j ≤ ex.length ∧ candLeaf stem j ∉ ex := by
  by_contra hc
  push_neg at hc
  have hnd : ((List.range (ex.length + 1)).map (candLeaf stem)).Nodup :=
    (List.nodup_range _).map (fun j k hjk => candLeaf_inj stem hjk)
  have hsub : (List.range (ex.length + 1)).map (candLeaf stem) ⊆ ex := by
    intro x hx
    rcases List.mem_map.mp hx with ⟨j, hj, rfl⟩
    exact hc j (by have := List.mem_range.mp hj; omega)
  have h1 : ((List.range (ex.length + 1)).map (candLeaf stem)).toFinset.card =
      ex.length + 1 := by
    rw [List.toFinset_card_of_nodup hnd]
    simp
  have h2 : ((List.range (ex.length + 1)).map (candLeaf stem)).toFinset ⊆ ex.toFinset :=
    fun x hx => List.mem_toFinset.mpr (hsub (List.mem_toFinset.mp hx))
  have h3 := Finset.card_le_card h2
  have h4 := List.toFinset_card_le ex
  omega

theorem freeIdx_succ (ex : List (List Nat)) (stem : List Nat) (k fuel : Nat) :
    freeIdx ex stem k (fuel + 1) =
      if candLeaf stem k ∈ ex then freeIdx ex stem (k + 1) fuel else k := rfl

theorem freeIdx_occupied (ex : List (List Nat)) (stem : List Nat) :
    ∀ (fuel k i : Nat), k ≤ i → i < freeIdx ex stem k fuel → candLeaf stem i ∈ ex := by
  intro fuel
  induction fuel with
  | zero =>
    intro k i h1 h2
    have h0 : freeIdx ex stem k 0 = k := rfl
    omega
  | succ g ih =>
    intro k i h1 h2
    rw [freeIdx_succ] at h2
    by_cases hm : candLeaf stem k ∈ ex
    · rw [if_pos hm] at h2
      by_cases hik : i = k
      · subst hik
        exact hm
      · exact ih (k + 1) i (by omega) h2
    · rw [if_neg hm] at h2
      omega

theorem freeIdx_free (ex : List (List Nat)) (stem : List Nat) :
    ∀ (fuel k : Nat), (∃ j, k ≤ j ∧ j < k + fuel ∧ candLeaf stem j ∉ ex) →
      candLeaf stem (freeIdx ex stem k fuel) ∉ ex := by
  intro fuel
  induction fuel with
  | zero =>
    intro k h
    obtain ⟨j, h1, h2, -⟩ := h
    omega
  | succ g ih =>
    intro k h
    rw [freeIdx_succ]
    by_cases hm : candLeaf stem k ∈ ex
    · rw [if_pos hm]
      obtain ⟨j, h1, h2, h3⟩ := h
      have hjk : j ≠ k := fun he => h3 (he ▸ hm)
      exact ih (k + 1) ⟨j, by omega, by omega, h3⟩
    · rw [if_neg hm]
      exact hm

theorem uniqueLeaf_not_mem (ex : List (List Nat)) (stem : List Nat) :
    uniqueLeaf ex stem ∉ ex := by
  unfold uniqueLeaf
  apply freeIdx_free
  obtain ⟨j, hj1, hj2⟩ := exists_free_leaf ex stem
  exact ⟨j, by omega, by omega, hj2⟩

theorem uniqueLeaf_strict (ex : List (List Nat)) (stem : List Nat) :
    ∃ k1 k2, uniqueLeaf ex stem = candLeaf stem k1 ∧
      uniqueLeaf (uniqueLeaf ex stem :: ex) stem = candLeaf stem k2 ∧ k1 < k2 := by
  refine ⟨freeIdx ex stem 0 (ex.length + 1),
    freeIdx (uniqueLeaf ex stem :: ex) stem 0 ((uniqueLeaf ex stem :: ex).length + 1),
    rfl, rfl, ?_⟩
  have h2 : candLeaf stem
      (freeIdx (uniqueLeaf ex stem :: ex) stem 0 ((uniqueLeaf ex stem :: ex).length + 1)) ∉
      (uniqueLeaf ex stem :: ex) := by
    apply freeIdx_free
    obtain ⟨j, hj1, hj2⟩ := exists_free_leaf (uniqueLeaf ex stem :: ex) stem
    exact ⟨j, by omega, by omega, hj2⟩
  have hne : freeIdx (uniqueLeaf ex stem :: ex) stem 0 ((uniqueLeaf ex stem :: ex).length + 1) ≠
      freeIdx ex stem 0 (ex.length + 1) := by
    intro he
    apply h2
    rw [he]
    exact List.mem_cons_self _ _
  have hge : ¬ freeIdx (uniqueLeaf ex stem :: ex) stem 0 ((uniqueLeaf ex stem :: ex).length + 1) <
      freeIdx ex stem 0 (ex.length + 1) := by
    intro hlt
    have hocc := freeIdx_occupied ex stem (ex.length + 1) 0 _ (by omega) hlt
    exact h2 (List.mem_cons_of_mem _ hocc)
  omega

/-- C8: the filename-uniqueness loop never chooses a name already present in
the target directory (so no file is overwritten); repeated calls with the
same stem, each adding its result to the directory, produce strictly
increasing counter suffixes; uniqueness is checked against the leaves of one
directory only (`linkStep` filters the file list by directory before calling
`uniqueLeaf`); and in Scenario E two links with the same stem `intro` in one
directory yield `intro.md` and then `intro_1.md`. -/
theorem unique_filename_no_overwrite :
    (∀ (ex : List (List Nat)) (stem : List Nat), uniqueLeaf ex stem ∉ ex) ∧
    (∀ (ex : List (List Nat)) (stem : List Nat),
      ∃ k1 k2, uniqueLeaf ex stem = candLeaf stem k1 ∧
        uniqueLeaf (uniqueLeaf ex stem :: ex) stem = candLeaf stem k2 ∧ k1 < k2) ∧
    uniqueLeaf [] (codesOf (str (r"intro"))) = codesOf (str (r"intro.md")) ∧
    uniqueLeaf [codesOf (str (r"intro.md"))] (codesOf (str (r"intro"))) =
      codesOf (str (r"intro_1.md")) :=
  ⟨uniqueLeaf_not_mem, uniqueLeaf_strict, by decide, by decide⟩

/-! ## Claim C9: sanitisation is idempotent -/

theorem dropWhile_eq_self_of_head {α} {p : α → Bool} {l : List α}
    (h : ∀ a, l.head? = some a → p a = false) : l.dropWhile p = l := by
  cases l with
  | nil => rfl
  | cons a as =>
    rw [List.dropWhile_cons, if_neg]
    simp [h a rfl]

theorem head_dropWhile_false {α} (p : α → Bool) :
    ∀ (l : List α) (a : α), (l.dropWhile p).head? = some a → p a = false := by
  intro l
  induction l with
  | nil =>
    intro a h
    cases h
  | cons x xs ih =>
    intro a h
    rw [List.dropWhile_cons] at h
    by_cases hp : p x = true
    · rw [if_pos hp] at h
      exact ih a h
    · rw [if_neg hp] at h
      have hx : x = a := by
        simpa using h
      subst hx
      simpa using hp

theorem getLast?_cons_ne {α} (x : α) (xs : List α) (h : xs ≠ []) :
    (x :: xs).getLast? = xs.getLast? := by
  cases xs with
  | nil => cases h rfl
  | cons y ys => rfl

theorem getLast?_dropWhile {α} (p : α → Bool) :
    ∀ (w : List α), w.dropWhile p ≠ [] → (w.dropWhile p).getLast? = w.getLast? := by
  intro w
  induction w with
  | nil =>
    intro h
    cases h rfl
  | cons x xs ih =>
    intro h
    rw [List.dropWhile_cons]
    by_cases hp : p x = true
    · rw [List.dropWhile_cons, if_pos hp] at h
      rw [if_pos hp, ih h, getLast?_cons_ne]
      intro he
      rw [he] at h
      exact h rfl
    · rw [if_neg hp]

theorem trimEnds_subset {l : List Nat} : ∀ x ∈ trimEnds l, x ∈ l := by
  intro x hx
  unfold trimEnds at hx
  rw [List.mem_reverse] at hx
  have h1 := (List.dropWhile_sublist _).subset hx
  rw [List.mem_reverse] at h1
  exact (List.dropWhile_sublist _).subset h1

theorem trimEnds_eq_self {l : List Nat}
    (h1 : ∀ a, l.head? = some a → isTrimChar a = false)
    (h2 : ∀ a, l.getLast? = some a → isTrimChar a = false) : trimEnds l = l := by
  unfold trimEnds
  rw [dropWhile_eq_self_of_head h1]
  rw [dropWhile_eq_self_of_head (fun a ha => h2 a (by rwa [List.head?_reverse] at ha)),
    List.reverse_reverse]

theorem trimEnds_trims_head (l : List Nat) :
    ∀ a, (trimEnds l).head? = some a → isTrimChar a = false := by
  intro a ha
  unfold trimEnds at ha
  rw [List.head?_reverse] at ha
  by_cases hX : ((l.dropWhile isTrimChar).reverse.dropWhile isTrimChar) = []
  · rw [hX] at ha
    cases ha
  · rw [getLast?_dropWhile _ _ hX, List.getLast?_reverse] at ha
    exact head_dropWhile_false _ l a ha

theorem trimEnds_trims_last (l : List Nat) :
    ∀ a, (trimEnds l).getLast? = some a → isTrimChar a = false := by
  intro a ha
  unfold trimEnds at ha
  rw [List.getLast?_reverse] at ha
  exact head_dropWhile_false _ _ a ha

theorem trimEnds_idem (l : List Nat) : trimEnds (trimEnds l) = trimEnds l :=
  trimEnds_eq_self (trimEnds_trims_head l) (trimEnds_trims_last l)

theorem mem_sanitizeCore_keep {s : List Nat} {x : Nat} (hx : x ∈ sanitizeCore s) :
    keepCharB x = true := by
  unfold sanitizeCore at hx
  have h1 := trimEnds_subset _ hx
  exact (List.mem_filter.mp h1).2

theorem mem_sanitizeCore_shape {s : List Nat} {x : Nat} (hx : x ∈ sanitizeCore s) :
    ∃ c, x = spaceToUnder (pyLowerN c) := by
  unfold sanitizeCore at hx
  have h1 := trimEnds_subset _ hx
  have h2 := (List.mem_filter.mp h1).1
  rcases List.mem_map.mp h2 with ⟨y, hy, rfl⟩
  rcases List.mem_map.mp hy with ⟨c, -, rfl⟩
  exact ⟨c, rfl⟩

theorem sanitize_shape_fixed (c : Nat) :
    pyLowerN (spaceToUnder (pyLowerN c)) = spaceToUnder (pyLowerN c) ∧
    spaceToUnder (spaceToUnder (pyLowerN c)) = spaceToUnder (pyLowerN c) := by
  unfold pyLowerN spaceToUnder
  by_cases h1 : 65 ≤ c ∧ c ≤ 90
  · rw [if_pos h1, if_neg (by omega : ¬ c + 32 = 32)]
    exact ⟨by rw [if_neg (by omega)], by rw [if_neg (by omega)]⟩
  · rw [if_neg h1]
    by_cases h2 : c = 32
    · rw [if_pos h2]
      exact ⟨by rw [if_neg (by omega)], by rw [if_neg (by omega)]⟩
    · rw [if_neg h2]
      exact ⟨by rw [if_neg h1], by rw [if_neg h2]⟩

theorem sanitizeCore_fix (s : List Nat) : sanitizeCore (sanitizeCore s) = sanitizeCore s := by
  have hlow : (sanitizeCore s).map pyLowerN = sanitizeCore s := by
    apply map_eq_self_of
    intro x hx
    obtain ⟨c, rfl⟩ := mem_sanitizeCore_shape hx
    exact (sanitize_shape_fixed c).1
  have hspace : (sanitizeCore s).map spaceToUnder = sanitizeCore s := by
    apply map_eq_self_of
    intro x hx
    obtain ⟨c, rfl⟩ := mem_sanitizeCore_shape hx
    exact (sanitize_shape_fixed c).2
  have hfilt : (sanitizeCore s).filter keepCharB = sanitizeCore s :=
    List.filter_eq_self.mpr (fun a ha => mem_sanitizeCore_keep ha)
  show trimEnds ((((sanitizeCore s).map pyLowerN).map spaceToUnder).filter keepCharB) =
    sanitizeCore s
  rw [hlow, hspace, hfilt]
  exact trimEnds_idem _

/-- C9: the filename sanitisation of lines 247–256 — lower-case, spaces to
underscores, drop characters outside alphanumerics/underscore/hyphen, trim
leading and trailing underscores/hyphens, empty result replaced by
`untitled_page` — is idempotent. -/
theorem sanitize_idempotent (x : List Nat) : sanitize (sanitize x) = sanitize x := by
  unfold sanitize
  by_cases h : sanitizeCore x = []
  · rw [if_pos h]
    decide
  · rw [if_neg h, sanitizeCore_fix, if_neg h]

end WebFetcher
